import Mathlib

/-!
Verification development for the quant_research_system repository.

This file gives a shallow embedding of the core subsystem described in
the specification — the DAG executor (data_manager/dag_executor.py), the
data-sync executor (data_manager/sync_components.py), the retry and
rate-limit utilities (app/core/utils.py), the factor-production engine
(engine/production/engine.py with data_manager/processor.py), and the
backfill endpoint (app/api/v1/production.py) — and proves or refutes the
frozen claims about it.

Modelling conventions:
* Dates are day indices (natural numbers): adding one calendar day is
  adding 1, and the lexicographic comparison of YYYYMMDD strings used by
  the Python code coincides with numeric order of day indices.
* Python dicts keyed by task id are modelled as functions from ids, or
  as searches over the task list (dict iteration order is insertion
  order, i.e. task-list order).
* Wall-clock time for the rate limiter is modelled as rational seconds.
* Fallible calls return Except; an empty API frame is Option.none.
-/

namespace QRS

/-! ## Shared list helpers -/

theorem filter_length_add_filter_not {α : Type} (p : α → Bool) :
    ∀ l : List α, (l.filter p).length + (l.filter (fun a => !(p a))).length = l.length := by
  intro l
  induction l with
  | nil => simp
  | cons a l ih =>
    by_cases h : p a = true <;> simp [List.filter, h, ← ih] <;> omega

/-! ## Retry policy and incremental sync (app/core/utils.py, data_manager/sync_components.py) -/

namespace Sync

/-- constants.py RETRY_BACKOFF_BASE. -/
def RETRY_BACKOFF_BASE : Nat := 2

/-- constants.py MAX_RETRY_ATTEMPTS (RetryPolicy default max_attempts = 3). -/
def MAX_RETRY_ATTEMPTS : Nat := 3

/-- Loop body of RetryPolicy.execute (utils.py lines 55-78), modelled over
an attempt-indexed call: result Except.error is a raised transport error,
Except.ok none is a call that returned an empty frame (the closure in
TushareAPIClient.call_api returns None for an empty DataFrame, which the
try/except of RetryPolicy.execute treats as a plain successful return).
The recursion follows `for attempt in range(max_attempts)`: on success the
value is returned at once; on an exception, if attempts remain the policy
sleeps base_delay ** attempt and retries, otherwise re-raises the last
exception.  Returns (outcome, number of calls made, backoff delays slept). -/
def retryGo (f : Nat → Except Unit (Option Nat)) (baseDelay : Nat) :
    Nat → Nat → Except Unit (Option Nat) × Nat × List Nat
  | _, 0 => (.ok none, 0, [])
  | attempt, remaining + 1 =>
    match f attempt with
    | .ok v => (.ok v, 1, [])
    | .error e =>
      if remaining = 0 then (.error e, 1, [])
      else
        let r := retryGo f baseDelay (attempt + 1) remaining
        (r.1, r.2.1 + 1, baseDelay ^ attempt :: r.2.2)

/-- RetryPolicy.execute: run the loop from attempt 0.  With max_attempts = 0
the loop body never runs and the method returns None, as in the source. -/
def retryExecute (f : Nat → Except Unit (Option Nat)) (baseDelay maxAttempts : Nat) :
    Except Unit (Option Nat) × Nat × List Nat :=
  retryGo f baseDelay 0 maxAttempts

/-- DateUtils.get_date_range: the inclusive list of days start..end. -/
def dateRange (s e : Nat) : List Nat := (List.range (e + 1 - s)).map (s + ·)

/-- Observable effects of one incremental sync execution: the overall
boolean result, API calls attempted (dates), upserts performed
(date, row count), and sync_log/sync_log_history writes (date, rows). -/
structure IncOutcome where
  ok : Bool
  apiCalls : List Nat
  upserts : List (Nat × Nat)
  syncLogs : List (Nat × Nat)
deriving DecidableEq

/-- Per-day loop of SyncTaskExecutor._execute_incremental_sync
(sync_components.py lines 403-422).  For each date: call the API; a
non-empty frame (some n) is upserted and logged with its row count; an
empty frame (none) is still logged with 0 rows so the watermark advances;
a raised error is not caught inside the loop — it propagates to
execute_task, which returns False — so rows and log entries already
written for earlier days are kept and no further day is attempted. -/
def incLoop (api : Nat → Except Unit (Option Nat)) : List Nat → IncOutcome
  | [] => ⟨true, [], [], []⟩
  | d :: rest =>
    match api d with
    | .error _ => ⟨false, [d], [], []⟩
    | .ok none =>
      let r := incLoop api rest
      ⟨r.ok, d :: r.apiCalls, r.upserts, (d, 0) :: r.syncLogs⟩
    | .ok (some n) =>
      let r := incLoop api rest
      ⟨r.ok, d :: r.apiCalls, (d, n) :: r.upserts, (d, n) :: r.syncLogs⟩

/-- Date-range resolution of _execute_incremental_sync (sync_components.py
lines 380-397; the source reuses the variable target_date for the end of
the range).  lastDate is the watermark from SyncLogManager.get_last_sync_date. -/
def resolveIncRange (lastDate targetDate endDate : Option Nat) (today : Nat) : Nat × Nat :=
  match targetDate with
  | none =>
    let start := match lastDate with
      | some d => d + 1
      | none => today
    (start, endDate.getD today)
  | some t => (t, endDate.getD t)

/-- SyncTaskExecutor._execute_incremental_sync: resolve the range; if
start > end the task is already up to date and returns True with no API
call and no store write; otherwise run the per-day loop over the range. -/
def executeIncrementalSync (lastDate targetDate endDate : Option Nat) (today : Nat)
    (api : Nat → Except Unit (Option Nat)) : IncOutcome :=
  let r := resolveIncRange lastDate targetDate endDate today
  if r.2 < r.1 then ⟨true, [], [], []⟩
  else incLoop api (dateRange r.1 r.2)

end Sync

/-! ## Rate limiter (app/core/utils.py RateLimiter) -/

namespace RL

/-- RateLimiter state: the calls-per-minute budget, the derived minimum
interval 60 / calls_per_minute, and the shared last_call_time. -/
structure RateLimiter where
  calls_per_minute : ℚ
  call_interval : ℚ
  last_call_time : ℚ

/-- RateLimiter.__init__: interval is 60 / calls_per_minute and
last_call_time starts at 0. -/
def mkRateLimiter (cpm : ℚ) : RateLimiter := ⟨cpm, 60 / cpm, 0⟩

/-- The sleep duration performed by RateLimiter.wait when entered at clock
time t: if the elapsed time since last_call_time is below the interval,
sleep the remainder, else do not sleep. -/
def sleepTime (rl : RateLimiter) (t : ℚ) : ℚ :=
  if t - rl.last_call_time < rl.call_interval then rl.call_interval - (t - rl.last_call_time)
  else 0

/-- RateLimiter.wait records a fresh clock reading t2, taken after the
sleep, as the new last_call_time. -/
def waitUpdate (rl : RateLimiter) (t2 : ℚ) : RateLimiter := { rl with last_call_time := t2 }

end RL

/-! ## Backfill endpoint (app/api/v1/production.py) -/

namespace Backfill

/-- production.py _generate_trading_dates: candidate dates are obtained by
a weekday filter only (Monday..Friday) — no trading-calendar lookup.  In
the day-index model day 0 is a Monday, so datetime.weekday() < 5 is
d % 7 < 5. -/
def generateTradingDates (startDate endDate : Nat) : List Nat :=
  ((List.range (endDate + 1 - startDate)).map (startDate + ·)).filter (fun d => d % 7 < 5)

/-- One per-day DAGRun result of the backfill loop, with the shared
backfill_id; status true stands for the final DAGRun status "success". -/
structure BackfillRun where
  target_date : Nat
  backfill_id : Nat
  status : Bool
deriving DecidableEq

/-- The summary dict returned by the backfill branch of run_dag. -/
structure BackfillSummary where
  backfill_id : Nat
  total_days : Nat
  success_days : Nat
  failed_days : Nat
  runs : List BackfillRun
deriving DecidableEq

/-- production.py run_dag, date-range backfill branch: generate the
candidate dates, reject an empty list up front (HTTP 400, before any
execute_dag call), otherwise call execute_dag once per date with the one
shared backfill_id, counting a day as success iff its DAGRun status is
"success" and as failed otherwise.  dagStatus abstracts the final status
of executor.execute_dag for a given date. -/
def runDagBackfill (dagStatus : Nat → Bool) (startDate endDate bid : Nat) :
    Except String BackfillSummary :=
  let dates := generateTradingDates startDate endDate
  if dates.isEmpty then .error "no trading days in range"
  else
    let runs := dates.map (fun d => BackfillRun.mk d bid (dagStatus d))
    .ok ⟨bid, dates.length, (runs.filter (fun r => r.status)).length,
         (runs.filter (fun r => !r.status)).length, runs⟩

end Backfill

/-! ## Factor-production engine (engine/production/engine.py, data_manager/processor.py) -/

namespace Production

/-- constants.py quality-flag bitmask values. -/
def QUALITY_NORMAL : Int := 0

/-- constants.py QUALITY_LIMIT_UP. -/
def QUALITY_LIMIT_UP : Int := 1

/-- constants.py QUALITY_LIMIT_DOWN. -/
def QUALITY_LIMIT_DOWN : Int := 2

/-- constants.py QUALITY_POST_SUSPENSION. -/
def QUALITY_POST_SUSPENSION : Int := 4

/-- constants.py QUALITY_LOW_VOLUME. -/
def QUALITY_LOW_VOLUME : Int := 8

/-- constants.py QUALITY_IPO_PERIOD. -/
def QUALITY_IPO_PERIOD : Int := 16

/-- engine.py DEFAULT_LOOKBACK_DAYS. -/
def DEFAULT_LOOKBACK_DAYS : Nat := 60

/-- The literal default start "20100101" of full-mode computation in
_resolve_dates, read as a day index. -/
def DEFAULT_START_DATE : Nat := 20100101

/-- utils.py TradingCalendar: the sorted list of trading days loaded from
trade_cal; an empty list is the not-loaded (fallback) state. -/
structure TradingCalendar where
  trading_days : List Nat
deriving DecidableEq

/-- TradingCalendar.is_loaded. -/
def TradingCalendar.is_loaded (cal : TradingCalendar) : Bool := !cal.trading_days.isEmpty

/-- bisect.bisect_left on a sorted list: the number of elements < x. -/
def bisectLeft (l : List Nat) (x : Nat) : Nat := (l.takeWhile (fun d => decide (d < x))).length

/-- TradingCalendar.offset_trading_days (utils.py lines 219-241).  When the
calendar is not loaded, fall back to DateUtils.add_days(date, int(n * 1.5));
Python int() truncates toward zero, and n * 1.5 is exact in binary floating
point, so the offset is the toward-zero quotient (3n) div 2 (the day-index
model clamps an impossible negative date at 0).  When loaded: locate date
with bisect_left, step back one slot if date itself is not a trading day
and n < 0, add n and clamp into the calendar bounds. -/
def TradingCalendar.offset_trading_days (cal : TradingCalendar) (date : Nat) (n : Int) : Nat :=
  if cal.trading_days.isEmpty then
    ((date : Int) + Int.tdiv (3 * n) 2).toNat
  else
    let days := cal.trading_days
    let idx0 : Int := bisectLeft days date
    let idx : Int :=
      if days.length ≤ bisectLeft days date ∨ days.getD (bisectLeft days date) 0 ≠ date then
        (if n < 0 then idx0 - 1 else idx0)
      else idx0
    let target : Int := max 0 (min (idx + n) ((days.length : Int) - 1))
    days.getD target.toNat 0

/-- Computation mode of a factor run. -/
inductive CMode
  | incremental
  | full
deriving DecidableEq

/-- engine.py _resolve_dates.  Returns (calc_start, calc_end, data_start),
or none when the incremental range is already up to date.  Full mode:
calc_start = start_date or "20100101", calc_end = end_date or today, and
data_start applies the lookback offset only when an explicit start_date
was given (otherwise everything from the default start is loaded as is).
Incremental mode: target_date, else start_date, else the day after the
last computed date (or today when none), and data_start is always the
trading-day offset of calc_start by -lookback. -/
def resolveDates (cal : TradingCalendar) (mode : CMode)
    (targetDate startDate endDate lastComputed : Option Nat)
    (lookback : Nat) (today : Nat) : Option (Nat × Nat × Nat) :=
  match mode with
  | .full =>
    let calcStart := startDate.getD DEFAULT_START_DATE
    let calcEnd := endDate.getD today
    let dataStart :=
      if startDate.isSome then cal.offset_trading_days calcStart (-(lookback : Int))
      else calcStart
    some (calcStart, calcEnd, dataStart)
  | .incremental =>
    let se : Nat × Nat :=
      match targetDate with
      | some t => (t, endDate.getD t)
      | none =>
        match startDate with
        | some s => (s, endDate.getD today)
        | none =>
          match lastComputed with
          | some ld => (ld + 1, today)
          | none => (today, today)
    if se.2 < se.1 then none
    else some (se.1, se.2, cal.offset_trading_days se.1 (-(lookback : Int)))

/-- A source-data row (sync_daily_data shape) as seen by the factor
engine: key columns plus the OHLC / pct_chg / vol values used by
mark_limit_up_down.  Column presence (has pct_chg / has vol) is a
frame-level fact and is passed separately. -/
structure SrcRow where
  ts_code : Nat
  trade_date : Nat
  openPx : ℚ
  highPx : ℚ
  lowPx : ℚ
  closePx : ℚ
  pctChg : ℚ
  vol : ℚ
deriving DecidableEq

/-- processor.py DataProcessor.mark_limit_up_down for one row, given the
frame-level column-presence flags.  Marks 1 = one-bar limit up,
-1 = limit down, 0 = normal: a flat OHLC bar, or (when pct_chg and vol
are both present) |pct_chg| >= 9.8 with vol below the threshold. -/
def markLimitUpDown (hasPct hasVol : Bool) (r : SrcRow) (volThreshold : ℚ) : Int :=
  let isFlat := r.openPx = r.closePx ∧ r.highPx = r.lowPx ∧ r.openPx = r.highPx
  if hasPct ∧ hasVol then
    let comb := isFlat ∨ (|r.pctChg| ≥ 49/5 ∧ r.vol < volThreshold)
    if comb ∧ r.pctChg > 0 then 1
    else if comb ∧ r.pctChg < 0 then -1
    else 0
  else if hasPct then
    if isFlat ∧ r.pctChg > 0 then 1
    else if isFlat ∧ r.pctChg < 0 then -1
    else 0
  else 0

/-- engine.py _build_quality_flag for one result row.  markCol is the
joined _limit_up_down series when the source frame carries that column
(left join on (ts_code, trade_date): none when the key is absent, which
falls into the otherwise-branch); when the column is absent every row
gets QUALITY_NORMAL. -/
def qualityOf (markCol : Option (Nat × Nat → Option Int)) (key : Nat × Nat) : Int :=
  match markCol with
  | none => QUALITY_NORMAL
  | some m =>
    match m key with
    | some v =>
      if v = 1 then QUALITY_LIMIT_UP
      else if v = -1 then QUALITY_LIMIT_DOWN
      else QUALITY_NORMAL
    | none => QUALITY_NORMAL

/-- A factor result row (ts_code, trade_date, factor_value). -/
structure ResRow where
  ts_code : Nat
  trade_date : Nat
  factor_value : ℚ
deriving DecidableEq

/-- A row stored by _save_to_unified_table: result row plus quality_flag. -/
structure StoredRow where
  ts_code : Nat
  trade_date : Nat
  factor_value : ℚ
  quality_flag : Int
deriving DecidableEq

/-- The factor_task_run record written by _finish_run_record. -/
structure RunRecord where
  status : String
  rows : Nat
deriving DecidableEq

/-- Observable outcome of ProductionEngine.run_task: the boolean return,
the final run record, and the rows stored. -/
structure RunResult where
  ok : Bool
  record : RunRecord
  stored : List StoredRow
deriving DecidableEq

/-- Inputs of one ProductionEngine.run_task call.  store is the backing
source table (the SQL load filters it by date range); compute abstracts
FactorDefinition.compute over the preprocessed frame (rows paired with
their _limit_up_down mark); suspension abstracts the optional
mark_suspension_gaps / nullify_post_suspension / drop_nulls step (an
arbitrary row transformation of the result frame); markLimit is the
effective mark_limit option conjoined with the source conditions
(sync_daily_data among depends_on and an open column present). -/
structure RunTaskArgs where
  mode : CMode
  targetDate : Option Nat
  startDate : Option Nat
  endDate : Option Nat
  lastComputed : Option Nat
  today : Nat
  lookback : Nat
  cal : TradingCalendar
  store : List SrcRow
  markLimit : Bool
  hasPct : Bool
  hasVol : Bool
  compute : List (SrcRow × Int) → Option (List ResRow)
  suspension : List ResRow → List ResRow

/-- The data load of run_task step 2 (_load_data): the source table
restricted to [data_start, calc_end] by the SQL where-clause. -/
def loadFrame (a : RunTaskArgs) (dataStart calcEnd : Nat) : List SrcRow :=
  a.store.filter (fun r => decide (dataStart ≤ r.trade_date ∧ r.trade_date ≤ calcEnd))

/-- Steps 2.5 and 2.6 of run_task: the special-stock filter followed by
the optional limit marking (the _limit_up_down column is present exactly
when markLimit holds; otherwise rows carry a dummy 0 never consulted). -/
def markedFrame (a : RunTaskArgs) (stFilter : List SrcRow → List SrcRow)
    (dataStart calcEnd : Nat) : List (SrcRow × Int) :=
  if a.markLimit then
    (stFilter (loadFrame a dataStart calcEnd)).map
      (fun r => (r, markLimitUpDown a.hasPct a.hasVol r 100))
  else (stFilter (loadFrame a dataStart calcEnd)).map (fun r => (r, 0))

/-- The joined _limit_up_down series used by _build_quality_flag: present
only when the source frame carries the mark column; the unique-subset
left join is the first match on (ts_code, trade_date). -/
def markColOf (a : RunTaskArgs) (stFilter : List SrcRow → List SrcRow)
    (dataStart calcEnd : Nat) : Option (Nat × Nat → Option Int) :=
  if a.markLimit then
    some (fun key =>
      ((markedFrame a stFilter dataStart calcEnd).find?
          (fun p => p.1.ts_code == key.1 && p.1.trade_date == key.2)).map (fun p => p.2))
  else none

/-- Steps 3.5 to 6 of run_task on a non-empty compute result: suspension
handling, restriction of the rows to [calc_start, calc_end], quality-flag
attachment, storage and the success record with the stored row count. -/
def storeStage (a : RunTaskArgs) (stFilter : List SrcRow → List SrcRow)
    (calcStart calcEnd dataStart : Nat) (res : List ResRow) : RunResult :=
  let afterSusp := a.suspension res
  let inRange := afterSusp.filter
    (fun r => decide (calcStart ≤ r.trade_date ∧ r.trade_date ≤ calcEnd))
  let stored := inRange.map (fun r =>
    StoredRow.mk r.ts_code r.trade_date r.factor_value
      (qualityOf (markColOf a stFilter dataStart calcEnd) (r.ts_code, r.trade_date)))
  ⟨true, ⟨"success", stored.length⟩, stored⟩

/-- engine.py ProductionEngine.run_task control flow (lines 50-163).
stFilter abstracts _filter_special_stocks (a row filter applied after the
no-data check).  Steps: resolve dates (none means already up to date:
record success with 0 rows, return True); load the dependency data for
[data_start, calc_end] (empty: record success 0 "no data", return False);
special-stock filter and optional limit marking; compute (None or empty:
record success 0 "empty result", return False); then the store stage,
returning True. -/
def run_task (a : RunTaskArgs) (stFilter : List SrcRow → List SrcRow) : RunResult :=
  match resolveDates a.cal a.mode a.targetDate a.startDate a.endDate a.lastComputed
      a.lookback a.today with
  | none => ⟨true, ⟨"success", 0⟩, []⟩
  | some (calcStart, calcEnd, dataStart) =>
    if (loadFrame a dataStart calcEnd).isEmpty then ⟨false, ⟨"success", 0⟩, []⟩
    else
      match a.compute (markedFrame a stFilter dataStart calcEnd) with
      | none => ⟨false, ⟨"success", 0⟩, []⟩
      | some res =>
        if res.isEmpty then ⟨false, ⟨"success", 0⟩, []⟩
        else storeStage a stFilter calcStart calcEnd dataStart res

end Production

/-! ## DAG executor (data_manager/dag_executor.py) -/

namespace Dag

/-- Task type of a TaskSpec. -/
inductive TType
  | sync
  | production
deriving DecidableEq

/-- One task of a DAG definition. -/
structure TaskSpec where
  task_id : Nat
  task_type : TType
  depends_on : List Nat
deriving DecidableEq

/-- A DAG configuration: the ordered task list (build_dag turns it into a
dict keyed by task_id, whose iteration order is this insertion order). -/
abbrev DagCfg := List TaskSpec

/-- The task ids of a DAG. -/
def ids (d : DagCfg) : List Nat := d.map (·.task_id)

/-- Dict lookup dag_run.tasks[tid] / tasks.get(tid). -/
def findTask (d : DagCfg) (tid : Nat) : Option TaskSpec := d.find? (fun t => t.task_id == tid)

/-- The dependencies of a task that resolve inside the DAG (the source
guards every in-degree increment and dependents entry with
`if dep in tasks`). -/
def resolvedDeps (d : DagCfg) (t : TaskSpec) : List Nat :=
  t.depends_on.filter (fun b => decide (b ∈ ids d))

/-- Initial in-degree of one task: its resolved dependency entries. -/
def indeg0 (d : DagCfg) (t : TaskSpec) : Nat := (resolvedDeps d t).length

/-- The in_degree dict as built identically by _validate_no_cycles and
topological_sort (0 for a key that is no task: such keys are never read). -/
def indegInit (d : DagCfg) : Nat → Int := fun tid =>
  match findTask d tid with
  | some t => (indeg0 d t : Int)
  | none => 0

/-- The initial Kahn queue: ids with in-degree 0, in task order. -/
def initQueue (d : DagCfg) : List Nat :=
  (d.filter (fun t => indeg0 d t == 0)).map (·.task_id)

/-- The dependents list of topological_sort: dependents[tid] collects
n.task_id once per resolved occurrence of tid in n.depends_on, nodes in
task order. -/
def dependents (d : DagCfg) (tid : Nat) : List Nat :=
  d.flatMap (fun n => ((resolvedDeps d n).filter (fun b => b == tid)).map (fun _ => n.task_id))

/-- Pointwise decrement of the in_degree dict at x. -/
def decr (f : Nat → Int) (x : Nat) : Nat → Int :=
  fun y => if y = x then f x - 1 else f y

/-- Process a list of decrement events (the inner loops of
topological_sort): decrement each event target in order, collecting into
the next queue every node whose count reaches exactly 0 at its event. -/
def stepEvents (f : Nat → Int) : List Nat → (Nat → Int) × List Nat
  | [] => (f, [])
  | x :: rest =>
    let f1 := decr f x
    let r := stepEvents f1 rest
    if f1 x = 0 then (r.1, x :: r.2) else r

/-- The decrement events generated by processing one layer: for tid in
layer (in order), one event per entry of dependents[tid]. -/
def layerEvents (d : DagCfg) (layer : List Nat) : List Nat :=
  layer.flatMap (dependents d)

/-- Process one layer of topological_sort: returns the updated in_degree
dict and the next queue. -/
def processLayer (d : DagCfg) (f : Nat → Int) (layer : List Nat) : (Nat → Int) × List Nat :=
  stepEvents f (layerEvents d layer)

/-- The while-loop of topological_sort.  Each iteration emits the whole
queue as one layer and computes the next queue.  The loop runs at most
once per task (a node enters the queue at most once, when its count
reaches 0), so fuel length d + 1 is never exhausted; fuel 0 is dead code
making the recursion structural. -/
def kahnAux (d : DagCfg) (f : Nat → Int) (queue : List Nat) : Nat → List (List Nat)
  | 0 => []
  | fuel + 1 =>
    if queue.isEmpty then []
    else
      let r := processLayer d f queue
      queue :: kahnAux d r.1 r.2 fuel

/-- DAGExecutor.topological_sort (dag_executor.py lines 186-209). -/
def topological_sort (d : DagCfg) : List (List Nat) :=
  kahnAux d (indegInit d) (initQueue d) (d.length + 1)

/-- The inner loop of _validate_no_cycles for one popped tid: iterate the
task dict in order; every node with tid among its depends_on (a
membership test, once per node) is decremented, and appended to the queue
when its count reaches 0. -/
def vStep (nodes : List TaskSpec) (f : Nat → Int) (tid : Nat) : (Nat → Int) × List Nat :=
  match nodes with
  | [] => (f, [])
  | n :: rest =>
    if n.depends_on.contains tid then
      let f1 := decr f n.task_id
      let r := vStep rest f1 tid
      if f1 n.task_id = 0 then (r.1, n.task_id :: r.2) else r
    else vStep rest f tid

/-- The while-loop of _validate_no_cycles: pop one tid, count it visited,
decrement its dependents and append the new zeros.  As in kahnAux, each
task is popped at most once, so fuel length d + 1 is never exhausted. -/
def validateAux (d : DagCfg) (f : Nat → Int) (queue : List Nat) (visited : Nat) :
    Nat → Nat
  | 0 => visited
  | fuel + 1 =>
    match queue with
    | [] => visited
    | tid :: rest =>
      let r := vStep d f tid
      validateAux d r.1 (rest ++ r.2) (visited + 1) fuel

/-- DAGExecutor._validate_no_cycles (dag_executor.py lines 166-184):
Kahn counting — the DAG is acyclic iff every task was visited. -/
def validate_no_cycles (d : DagCfg) : Bool :=
  validateAux d (indegInit d) (initQueue d) 0 (d.length + 1) == d.length

/-- DAGExecutor.build_dag (dag_executor.py lines 136-164): construct the
task map, raise on a cycle (first), then raise on a depends_on entry that
does not resolve in the DAG. -/
def build_dag (d : DagCfg) : Except String DagCfg :=
  if validate_no_cycles d then
    if d.all (fun t => t.depends_on.all (fun b => (ids d).contains b)) then .ok d
    else .error "unknown dependency"
  else .error "cycle"

/-- The resolved dependency relation: DepRel d a b holds when task a lists
b among its depends_on and b is a task of the same DAG. -/
def DepRel (d : DagCfg) (a b : Nat) : Prop :=
  ∃ t ∈ d, t.task_id = a ∧ b ∈ t.depends_on ∧ b ∈ ids d

/-- Acyclicity of a DAG: the resolved dependency relation is well-founded
(every task is reachable bottom-up from dependency-free tasks; for these
finite graphs this is the absence of a dependency cycle). -/
def Acyclic (d : DagCfg) : Prop := WellFounded (fun b a => DepRel d a b)

/-- TaskNode.status values. -/
inductive TStatus
  | pending
  | waiting
  | running
  | success
  | failed
  | skipped
deriving DecidableEq

/-- The mutable per-task state of a DAGRun: status and error_message,
keyed by task id. -/
structure DagState where
  status : Nat → TStatus
  msg : Nat → Option String

/-- Set one task's status, keeping its error_message. -/
def setStatus (st : DagState) (tid : Nat) (s : TStatus) : DagState :=
  ⟨fun y => if y = tid then s else st.status y, st.msg⟩

/-- Mark one task skipped with error_message "Dependency failed"
(execute_dag lines 238-241). -/
def setSkipped (st : DagState) (tid : Nat) : DagState :=
  ⟨fun y => if y = tid then .skipped else st.status y,
   fun y => if y = tid then some "Dependency failed" else st.msg y⟩

/-- DAGExecutor._should_skip: some dependency that is a task of the DAG
has status failed or skipped. -/
def shouldSkip (d : DagCfg) (st : DagState) (t : TaskSpec) : Bool :=
  t.depends_on.any (fun depId =>
    match findTask d depId with
    | some _ => st.status depId == .failed || st.status depId == .skipped
    | none => false)

/-- The skip decision for a task id (false for an id that is no task;
layers only contain task ids). -/
def skipB (d : DagCfg) (st : DagState) (tid : Nat) : Bool :=
  match findTask d tid with
  | some t => shouldSkip d st t
  | none => false

/-- First pass over one layer (execute_dag lines 235-244): in order, mark
each task either skipped (dependency failed) or waiting, collecting the
runnable ones. -/
def markPhase (d : DagCfg) (st : DagState) : List Nat → DagState × List Nat
  | [] => (st, [])
  | tid :: rest =>
    match findTask d tid with
    | none => markPhase d st rest
    | some node =>
      if shouldSkip d st node then markPhase d (setSkipped st tid) rest
      else
        let r := markPhase d (setStatus st tid .waiting) rest
        (r.1, tid :: r.2)

/-- Second pass: the worker pool runs every runnable task
(_execute_task: status running, then success iff the dispatched executor
returned True, failed on a False return or a raised exception — exec
already folds exceptions into false).  Each task touches only its own
node, so the concurrent pool is order-independent and modelled as a
fold. -/
def runPhase (exec : Nat → Bool) (st : DagState) : List Nat → DagState
  | [] => st
  | tid :: rest => runPhase exec (setStatus st tid (if exec tid then .success else .failed)) rest

/-- Run the layers in sequence (execute_dag lines 233-253), collecting the
list of tasks actually submitted for execution. -/
def runLayers (d : DagCfg) (exec : Nat → Bool) (st : DagState) :
    List (List Nat) → DagState × List Nat
  | [] => (st, [])
  | layer :: rest =>
    let m := markPhase d st layer
    let st2 := runPhase exec m.1 m.2
    let r := runLayers d exec st2 rest
    (r.1, m.2 ++ r.2)

/-- Final DAGRun status aggregation (execute_dag lines 255-261): success
when all tasks succeeded, failed when any task failed, success otherwise
(a run of successes and skips reports success). -/
def aggregate (d : DagCfg) (st : DagState) : TStatus :=
  let ss := d.map (fun t => st.status t.task_id)
  if ss.all (fun s => s == .success) then .success
  else if ss.any (fun s => s == .failed) then .failed
  else .success

/-- Outcome of one execute_dag call: final per-task state, aggregated
DAGRun status, and the tasks that were actually executed. -/
structure DagOutcome where
  state : DagState
  final : TStatus
  executed : List Nat

/-- All tasks start pending with no error message. -/
def initState : DagState := ⟨fun _ => .pending, fun _ => none⟩

/-- DAGExecutor.execute_dag (dag_executor.py lines 211-270): build_dag
runs before the try block, so a cycle or unknown-dependency error
propagates to the caller before any task executes; otherwise the layers
run in sequence and the final status is aggregated.  exec is the
per-task dispatch to the sync or production executor (returning the
boolean task success, exceptions folded into false). -/
def execute_dag (d : DagCfg) (exec : Nat → Bool) : Except String DagOutcome :=
  match build_dag d with
  | .error e => .error e
  | .ok _ =>
    let layers := topological_sort d
    let r := runLayers d exec initState layers
    .ok ⟨r.1, aggregate d r.1, r.2⟩

/-- The tasks executed by an execute_dag call (none when it raised). -/
def executedTasks (r : Except String DagOutcome) : List Nat :=
  match r with
  | .error _ => []
  | .ok o => o.executed

/-! Invariant vocabulary for the two Kahn loops. -/

/-- The resolved dependencies of a task id (empty for an id that is no
task of the DAG). -/
def depsOfId (d : DagCfg) (tid : Nat) : List Nat :=
  match findTask d tid with
  | some t => resolvedDeps d t
  | none => []

/-- The number of resolved dependencies of tid not yet emitted (E is the
list of emitted task ids).  Both loops keep in_degree[tid] equal to this. -/
def unres (d : DagCfg) (E : List Nat) (tid : Nat) : Int :=
  ((depsOfId d tid).filter (fun b => !decide (b ∈ E))).length

/-- The number of resolved dependencies of tid lying in Q. -/
def inCnt (d : DagCfg) (Q : List Nat) (tid : Nat) : Nat :=
  ((depsOfId d tid).filter (fun b => decide (b ∈ Q))).length

/-- The loop invariant shared by _validate_no_cycles and
topological_sort: E is the emission history, Q the current queue;
emitted and queued ids are distinct task ids, the in-degree dict equals
the unresolved-dependency count, emitted and queued nodes have all their
resolved dependencies emitted, and every unemitted unqueued task has a
positive count (it was never missed). -/
structure KInv (d : DagCfg) (f : Nat → Int) (E Q : List Nat) : Prop where
  nodup : (E ++ Q).Nodup
  subE : ∀ x ∈ E, x ∈ ids d
  subQ : ∀ x ∈ Q, x ∈ ids d
  count : ∀ tid, f tid = unres d E tid
  qdone : ∀ x ∈ Q, unres d E x = 0
  edone : ∀ x ∈ E, unres d E x = 0
  fresh : ∀ t ∈ d, t.task_id ∉ E → t.task_id ∉ Q → 0 < f t.task_id

/-- A layer list is well-formed over the already-emitted prefix E when
each layer consists of task ids whose resolved dependencies are all
emitted before the layer starts. -/
def GoodLayers (d : DagCfg) : List Nat → List (List Nat) → Prop
  | _, [] => True
  | E, q :: rest =>
    (∀ x ∈ q, x ∈ ids d ∧ ∀ b ∈ depsOfId d x, b ∈ E) ∧ GoodLayers d (E ++ q) rest

/-- Terminal task statuses. -/
def Terminal (s : TStatus) : Prop := s = .success ∨ s = .failed ∨ s = .skipped

/-- The weaker loop invariant of _validate_no_cycles that holds without
any assumption on duplicate depends_on entries: the in_degree dict
dominates the per-occurrence unresolved count and is non-positive on
emitted or queued ids (so an id is enqueued at most once). -/
structure VInv (d : DagCfg) (f : Nat → Int) (E Q : List Nat) : Prop where
  nodup : (E ++ Q).Nodup
  subE : ∀ x ∈ E, x ∈ ids d
  subQ : ∀ x ∈ Q, x ∈ ids d
  ge : ∀ tid, unres d E tid ≤ f tid
  npos : ∀ x ∈ E ++ Q, f x ≤ 0

/-- The execution invariant of the execute_dag layer loop: E is the
concatenation of the processed layers; resolved dependencies of
processed tasks are processed, and a processed task with a failed or
skipped resolved dependency is skipped with the dependency-failure
message. -/
structure SInv (d : DagCfg) (E : List Nat) (st : DagState) : Prop where
  closed : ∀ x ∈ E, ∀ b ∈ depsOfId d x, b ∈ E
  casc : ∀ x ∈ E, ∀ b ∈ depsOfId d x,
    st.status b = TStatus.failed ∨ st.status b = TStatus.skipped →
    st.status x = TStatus.skipped ∧ st.msg x = some "Dependency failed"

end Dag

/-! ## Theorems: claims C1, C3, C7, C9 -/

/-- Helper: an all-error call makes retryGo use every attempt, sleeping
base ^ attempt between consecutive attempts, and re-raise at the end. -/
theorem Sync.retryGo_all_error (f : Nat → Except Unit (Option Nat)) (base : Nat)
    (hf : ∀ i, f i = .error ()) :
    ∀ rem att, 1 ≤ rem →
      Sync.retryGo f base att rem
        = (.error (), rem, (List.range (rem - 1)).map (fun i => base ^ (att + i))) := by
  intro rem
  induction rem with
  | zero => omega
  | succ r ih =>
    intro att _
    unfold Sync.retryGo
    rw [hf att]
    by_cases hr : r = 0
    · subst hr; simp
    · have h1 : 1 ≤ r := by omega
      simp only [hr, if_false, ih (att + 1) h1]
      have hmaps : base ^ att :: (List.range (r - 1)).map (fun i => base ^ (att + 1 + i))
          = (List.range r).map (fun i => base ^ (att + i)) := by
        obtain ⟨k, rfl⟩ : ∃ k, r = k + 1 := ⟨r - 1, by omega⟩
        rw [List.range_succ_eq_map]
        simp only [List.map_cons, List.map_map, Nat.add_sub_cancel]
        refine congrArg₂ List.cons (by rw [Nat.add_zero]) ?_
        refine List.map_congr_left ?_
        intro i _
        simp only [Function.comp_apply]
        congr 1
        omega
      simp only [Nat.add_sub_cancel]
      rw [← hmaps]

/-- Helper: the per-day incremental loop on a day list whose prefix
succeeds and whose next day raises after retries: the overall result is
False, exactly one sync-log row exists per completed prefix day (none is
undone), and the API was attempted on the prefix days and the failing
day only. -/
theorem Sync.incLoop_error_after_prefix (api : Nat → Except Unit (Option Nat))
    (pre : List Nat) (dday : Nat) (post : List Nat)
    (hok : ∀ x ∈ pre, api x ≠ .error ()) (herr : api dday = .error ()) :
    (Sync.incLoop api (pre ++ dday :: post)).ok = false
    ∧ ((Sync.incLoop api (pre ++ dday :: post)).syncLogs).map (·.1) = pre
    ∧ (Sync.incLoop api (pre ++ dday :: post)).apiCalls = pre ++ [dday] := by
  induction pre with
  | nil => simp [Sync.incLoop, herr]
  | cons x pre ih =>
    have hx : api x ≠ .error () := hok x (by simp)
    have ihh := ih (fun y hy => hok y (by simp [hy]))
    cases hapi : api x with
    | error e =>
      cases e
      exact absurd hapi hx
    | ok v =>
      cases v with
      | none => simp [Sync.incLoop, hapi, ihh.1, ihh.2.1, ihh.2.2]
      | some n => simp [Sync.incLoop, hapi, ihh.1, ihh.2.1, ihh.2.2]

/-- C3 counterexample: with the default policy (3 attempts, backoff base
2), a call whose every attempt returns an empty result is executed
exactly once — it is not retried up to the attempt count as claimed. -/
theorem c3_counterexample :
    (Sync.retryExecute (fun _ => .ok none) Sync.RETRY_BACKOFF_BASE Sync.MAX_RETRY_ATTEMPTS).2.1
      = 1
    ∧ (1 : Nat) ≠ Sync.MAX_RETRY_ATTEMPTS := by
  constructor
  · rfl
  · decide

/-- C3 (amended): an API call is retried up to the configured attempt
count with exponentially increasing backoff (base_delay ^ attempt) only
when it raises a transport error; a call returning an empty result is
returned as such after a single attempt, with no retry.  When retries
are exhausted the error propagates, failing the task from the erroring
day on, but the sync-log rows already written for the earlier days of
the same incremental run are not undone: exactly one log row per
completed prior day remains. -/
theorem c3_retry_behaviour
    (f g : Nat → Except Unit (Option Nat)) (base maxA : Nat)
    (api : Nat → Except Unit (Option Nat)) (pre post : List Nat) (dday : Nat)
    (hf : ∀ i, f i = .error ()) (hmax : 1 ≤ maxA)
    (hg : g 0 = .ok none)
    (hok : ∀ x ∈ pre, api x ≠ .error ()) (herr : api dday = .error ()) :
    (Sync.retryExecute f base maxA
       = (.error (), maxA, (List.range (maxA - 1)).map (fun i => base ^ i)))
    ∧ (2 ≤ base → ((List.range (maxA - 1)).map (fun i => base ^ i)).Pairwise (· < ·))
    ∧ (Sync.retryExecute g base maxA).2.1 = 1
    ∧ (Sync.retryExecute g base maxA).1 = .ok none
    ∧ (Sync.incLoop api (pre ++ dday :: post)).ok = false
    ∧ ((Sync.incLoop api (pre ++ dday :: post)).syncLogs).map (·.1) = pre
    ∧ (Sync.incLoop api (pre ++ dday :: post)).apiCalls = pre ++ [dday] := by
  have herrcase := Sync.retryGo_all_error f base hf maxA 0 hmax
  have hloop := Sync.incLoop_error_after_prefix api pre dday post hok herr
  refine ⟨?_, ?_, ?_, ?_, hloop.1, hloop.2.1, hloop.2.2⟩
  · simpa [Sync.retryExecute] using herrcase
  · intro hb
    have hmono : ∀ i j : Nat, i < j → base ^ i < base ^ j := by
      intro i j hij
      exact Nat.pow_lt_pow_right (by omega) hij
    exact List.Pairwise.map _ (fun {i j} h => hmono i j h) (List.pairwise_lt_range _)
  · obtain ⟨r, hr⟩ : ∃ r, maxA = r + 1 := ⟨maxA - 1, by omega⟩
    subst hr
    simp [Sync.retryExecute, Sync.retryGo, hg]
  · obtain ⟨r, hr⟩ : ∃ r, maxA = r + 1 := ⟨maxA - 1, by omega⟩
    subst hr
    simp [Sync.retryExecute, Sync.retryGo, hg]

/-- C3 witness: a concrete instantiation of the amended retry theorem. -/
theorem c3_witness :
    (Sync.retryExecute (fun _ => .error ()) 2 3
       = (.error (), 3, [1, 2]))
    ∧ (Sync.retryExecute (fun _ => .ok none) 2 3).2.1 = 1
    ∧ (Sync.incLoop (fun x => if x = 2 then .error () else .ok none)
         ([0, 1] ++ 2 :: [3])).syncLogs.map (·.1) = [0, 1] := by
  have h := c3_retry_behaviour (fun _ => .error ()) (fun _ => .ok none) 2 3
    (fun x => if x = 2 then .error () else .ok none) [0, 1] [3] 2
    (fun _ => rfl) (by omega) rfl
    (by intro x hx hcontra; fin_cases hx <;> simp at hcontra) rfl
  refine ⟨?_, h.2.2.1, h.2.2.2.2.2.1⟩
  rw [h.1]
  rfl

/-- C1 counterexample: an incremental sync with no watermark and no
target_date but an explicit end_date one day ahead of today resolves to
the range [today, end_date], not [today, today] as the claim states. -/
theorem c1_counterexample :
    Sync.resolveIncRange none none (some 11) 10 ≠ (10, 10) := by
  decide

/-- C1 (amended): for an incremental sync invoked with no target_date,
the resolved range starts at today when no watermark exists and at D + 1
when the watermark is D, and ends at end_date when one is provided and at
today otherwise (so with no end_date the ranges are [today, today] and
[D + 1, today] exactly as claimed); and whenever the resolved start
exceeds the resolved end, the sync returns True having made no API call,
no upsert and no sync-log write. -/
theorem c1_range_resolution (D today : Nat) (endDate : Option Nat)
    (lastDate targetDate endDate2 : Option Nat)
    (api : Nat → Except Unit (Option Nat))
    (hgt : (Sync.resolveIncRange lastDate targetDate endDate2 today).2
           < (Sync.resolveIncRange lastDate targetDate endDate2 today).1) :
    Sync.resolveIncRange none none endDate today = (today, endDate.getD today)
    ∧ Sync.resolveIncRange (some D) none endDate today = (D + 1, endDate.getD today)
    ∧ Sync.executeIncrementalSync lastDate targetDate endDate2 today api
        = ⟨true, [], [], []⟩ := by
  refine ⟨rfl, rfl, ?_⟩
  unfold Sync.executeIncrementalSync
  simp [hgt]

/-- C1 witness: with watermark 7 and today 5 the resolved range is
[8, 5], already up to date, and the sync is a no-op success. -/
theorem c1_witness :
    Sync.executeIncrementalSync (some 7) none none 5 (fun _ => .error ())
      = ⟨true, [], [], []⟩ :=
  (c1_range_resolution 0 5 none (some 7) none none (fun _ => .error ())
    (by decide)).2.2

/-- C9: a rate limiter configured at 120 calls per minute enforces a
minimum of 60 / 120 = 0.5 seconds between the recorded start times of
two consecutive API calls through the same instance: wait() is entered
at some clock time t1 at or after the previous call's recorded time,
sleeps whatever remains of the interval, and records a fresh reading t2
taken after the sleep, so the new recorded time is at least 0.5 s after
the previous one. -/
theorem c9_rate_limiter (rl : RL.RateLimiter) (t1 t2 : ℚ)
    (hint : rl.call_interval = (RL.mkRateLimiter 120).call_interval)
    (hmono : rl.last_call_time ≤ t1)
    (hsleep : t1 + RL.sleepTime rl t1 ≤ t2) :
    rl.last_call_time + 1 / 2 ≤ (RL.waitUpdate rl t2).last_call_time := by
  have hval : (RL.mkRateLimiter 120).call_interval = 1 / 2 := by
    norm_num [RL.mkRateLimiter]
  rw [hval] at hint
  unfold RL.sleepTime at hsleep
  rw [hint] at hsleep
  unfold RL.waitUpdate
  by_cases hc : t1 - rl.last_call_time < 1 / 2
  · rw [if_pos hc] at hsleep
    simpa using le_trans (by linarith) hsleep
  · rw [if_neg hc] at hsleep
    simp only [not_lt] at hc
    simpa using le_trans (by linarith) hsleep

/-- C9 witness: a fresh limiter at 120 cpm, entered at time 0, sleeps
0.5 s and records 0.5, half a second after the previous recorded time. -/
theorem c9_witness :
    (RL.mkRateLimiter 120).last_call_time + 1 / 2
      ≤ (RL.waitUpdate (RL.mkRateLimiter 120) (1 / 2)).last_call_time := by
  refine c9_rate_limiter (RL.mkRateLimiter 120) 0 (1 / 2) rfl (by norm_num [RL.mkRateLimiter]) ?_
  norm_num [RL.sleepTime, RL.mkRateLimiter]

/-- C7: a backfill over a range whose weekday-filtered candidate list is
non-empty calls execute_dag exactly once per candidate date (the runs
list is the candidate list in order), all produced DAGRuns share the one
backfill_id, total_days is the candidate count N, and
success_days + failed_days = N; candidate dates are selected by the
weekday filter alone (every candidate is a Monday..Friday inside the
range). -/
theorem c7_backfill (dagStatus : Nat → Bool) (s e bid : Nat)
    (hne : Backfill.generateTradingDates s e ≠ []) :
    ∃ sum, Backfill.runDagBackfill dagStatus s e bid = .ok sum
      ∧ sum.runs.length = (Backfill.generateTradingDates s e).length
      ∧ sum.runs.map (·.target_date) = Backfill.generateTradingDates s e
      ∧ (∀ r ∈ sum.runs, r.backfill_id = bid)
      ∧ sum.total_days = (Backfill.generateTradingDates s e).length
      ∧ sum.success_days + sum.failed_days = (Backfill.generateTradingDates s e).length
      ∧ (∀ dd ∈ Backfill.generateTradingDates s e, dd % 7 < 5 ∧ s ≤ dd ∧ dd ≤ e) := by
  have hempty : (Backfill.generateTradingDates s e).isEmpty = false := by
    cases h : Backfill.generateTradingDates s e with
    | nil => exact absurd h hne
    | cons a l => simp [h]
  refine ⟨⟨bid, (Backfill.generateTradingDates s e).length,
      (((Backfill.generateTradingDates s e).map
          (fun dd => Backfill.BackfillRun.mk dd bid (dagStatus dd))).filter
        (fun r => r.status)).length,
      (((Backfill.generateTradingDates s e).map
          (fun dd => Backfill.BackfillRun.mk dd bid (dagStatus dd))).filter
        (fun r => !r.status)).length,
      (Backfill.generateTradingDates s e).map
        (fun dd => Backfill.BackfillRun.mk dd bid (dagStatus dd))⟩,
    ?_, by simp, ?_, ?_, rfl, ?_, ?_⟩
  · simp only [Backfill.runDagBackfill, hempty]
    rfl
  · rw [List.map_map]
    exact List.map_id _
  · intro r hr
    simp only [List.mem_map] at hr
    obtain ⟨dd, _, rfl⟩ := hr
    rfl
  · exact filter_length_add_filter_not (fun r : Backfill.BackfillRun => r.status)
      ((Backfill.generateTradingDates s e).map
        (fun dd => Backfill.BackfillRun.mk dd bid (dagStatus dd))) |>.trans (by simp)
  · intro dd hdd
    simp only [Backfill.generateTradingDates, List.mem_filter, List.mem_map,
      List.mem_range, decide_eq_true_eq] at hdd
    obtain ⟨⟨i, hi, rfl⟩, hwd⟩ := hdd
    exact ⟨hwd, by omega, by omega⟩

/-- C7 witness: the week 0..6 (day 0 a Monday) has 5 weekday candidates
and the summary counts add up over them. -/
theorem c7_witness :
    Backfill.generateTradingDates 0 6 ≠ []
    ∧ ∃ sum, Backfill.runDagBackfill (fun dd => decide (dd ≠ 2)) 0 6 37 = .ok sum
        ∧ sum.runs.length = (Backfill.generateTradingDates 0 6).length
        ∧ sum.runs.map (·.target_date) = Backfill.generateTradingDates 0 6
        ∧ (∀ r ∈ sum.runs, r.backfill_id = 37)
        ∧ sum.total_days = (Backfill.generateTradingDates 0 6).length
        ∧ sum.success_days + sum.failed_days = (Backfill.generateTradingDates 0 6).length
        ∧ (∀ dd ∈ Backfill.generateTradingDates 0 6, dd % 7 < 5 ∧ 0 ≤ dd ∧ dd ≤ 6) :=
  ⟨by decide, c7_backfill (fun dd => decide (dd ≠ 2)) 0 6 37 (by decide)⟩

/-! ## Theorems: claims C2, C8, C10 -/

/-- Helper: _build_quality_flag only ever produces the three values
normal, limit-up, limit-down. -/
theorem Production.qualityOf_cases (markCol : Option (Nat × Nat → Option Int))
    (key : Nat × Nat) :
    Production.qualityOf markCol key = Production.QUALITY_NORMAL
    ∨ Production.qualityOf markCol key = Production.QUALITY_LIMIT_UP
    ∨ Production.qualityOf markCol key = Production.QUALITY_LIMIT_DOWN := by
  unfold Production.qualityOf
  cases markCol with
  | none => exact Or.inl rfl
  | some m =>
    cases hmk : m key with
    | none => simp [hmk]
    | some v =>
      by_cases h1 : v = 1
      · simp [hmk, h1]
      · by_cases h2 : v = -1 <;> simp [hmk, h1, h2]

/-- C2 counterexample: a concrete run whose compute returns an empty
frame records the run as "success" with zero rows but returns False to
the caller, not True as claimed. -/
theorem c2_counterexample :
    (Production.run_task
      ⟨.incremental, some 10, none, none, none, 10, 60, ⟨[]⟩,
       [⟨1, 10, 1, 1, 1, 1, 0, 0⟩], false, false, false, fun _ => some [], id⟩ id).ok
      = false
    ∧ (Production.run_task
      ⟨.incremental, some 10, none, none, none, 10, 60, ⟨[]⟩,
       [⟨1, 10, 1, 1, 1, 1, 0, 0⟩], false, false, false, fun _ => some [], id⟩ id).record
      = ⟨"success", 0⟩ := ⟨rfl, rfl⟩

/-- C2 (amended): whenever the dates resolve, the loaded frame is
non-empty and FactorDefinition.compute returns a nil or empty result,
run_task records the run with status "success" and zero rows, stores
nothing, and returns False (not True) to the caller. -/
theorem c2_empty_result (a : Production.RunTaskArgs)
    (stFilter : List Production.SrcRow → List Production.SrcRow)
    (cs ce ds : Nat)
    (hres : Production.resolveDates a.cal a.mode a.targetDate a.startDate a.endDate
        a.lastComputed a.lookback a.today = some (cs, ce, ds))
    (hdf : (Production.loadFrame a ds ce).isEmpty = false)
    (hcomp : ∀ l res, a.compute l = some res → res = []) :
    Production.run_task a stFilter = ⟨false, ⟨"success", 0⟩, []⟩ := by
  unfold Production.run_task
  rw [hres]
  simp only [hdf, Bool.false_eq_true, if_false]
  cases hc : a.compute (Production.markedFrame a stFilter ds ce) with
  | none => rfl
  | some res =>
    obtain rfl := hcomp _ _ hc
    rfl

/-- C2 witness: a concrete instantiation of the amended statement. -/
theorem c2_witness :
    Production.run_task
      ⟨.incremental, some 10, none, none, none, 10, 60, ⟨[]⟩,
       [⟨2, 10, 1, 1, 1, 1, 0, 0⟩], false, false, false, fun _ => none, id⟩ id
      = ⟨false, ⟨"success", 0⟩, []⟩ :=
  c2_empty_result _ id 10 10 0 rfl rfl
    (fun _ res h => by cases h)

/-- C8 counterexample: in full mode with no explicit start_date, the data
load starts at the default start itself, later than the trading-day
offset of the calculation start by -lookback whenever the calendar
extends before the default start: with calendar days 20091230 and
20100104 and lookback 1, the load starts at 20100101 while the offset is
20091230. -/
theorem c8_counterexample :
    Production.resolveDates ⟨[20091230, 20100104]⟩ .full none none none none 1 20100110
      = some (20100101, 20100110, 20100101)
    ∧ (⟨[20091230, 20100104]⟩ : Production.TradingCalendar).offset_trading_days 20100101 (-1)
      = 20091230
    ∧ ¬ (20100101 : Nat) ≤ 20091230 := by
  refine ⟨rfl, rfl, by decide⟩

/-- Helper: the resolved data_start equals the trading-day offset of the
calculation start by -lookback in incremental mode and in full mode with
an explicit start_date. -/
theorem Production.resolveDates_lookback (cal : Production.TradingCalendar)
    (mode : Production.CMode) (tD sD eD lC : Option Nat) (lb tdy cs ce ds : Nat)
    (hres : Production.resolveDates cal mode tD sD eD lC lb tdy = some (cs, ce, ds))
    (hmode : mode = .incremental ∨ sD.isSome = true) :
    ds = cal.offset_trading_days cs (-(lb : Int)) := by
  cases mode with
  | incremental =>
    simp only [Production.resolveDates] at hres
    split at hres
    · exact absurd hres (by simp)
    · simp only [Option.some.injEq, Prod.mk.injEq] at hres
      obtain ⟨h1, _, h3⟩ := hres
      rw [← h3, h1]
  | full =>
    have hsome : sD.isSome = true := by
      rcases hmode with h | h
      · exact absurd h (by simp)
      · exact h
    obtain ⟨s, rfl⟩ := Option.isSome_iff_exists.mp hsome
    simp only [Production.resolveDates, Option.getD_some, Option.isSome_some,
      if_true, Option.some.injEq, Prod.mk.injEq] at hres
    obtain ⟨h1, _, h3⟩ := hres
    rw [← h3, h1]

/-- Helper: the stored rows of run_task are restricted to the
[calc_start, calc_end] range resolved for the run. -/
theorem Production.run_task_stored_range (a : Production.RunTaskArgs)
    (stFilter : List Production.SrcRow → List Production.SrcRow)
    (cs ce ds : Nat)
    (hres : Production.resolveDates a.cal a.mode a.targetDate a.startDate a.endDate
        a.lastComputed a.lookback a.today = some (cs, ce, ds)) :
    ∀ r ∈ (Production.run_task a stFilter).stored,
      cs ≤ r.trade_date ∧ r.trade_date ≤ ce := by
  intro r hr
  simp only [Production.run_task, hres] at hr
  split at hr
  · exact absurd hr (by simp)
  · split at hr
    · exact absurd hr (by simp)
    · split at hr
      · exact absurd hr (by simp)
      · simp only [Production.storeStage, List.mem_map] at hr
        obtain ⟨q, hq, rfl⟩ := hr
        simp only [List.mem_filter, decide_eq_true_eq] at hq
        exact ⟨hq.2.1, hq.2.2⟩

/-- C8 (amended): whenever the dates resolve to (calc_start, calc_end,
data_start), the data load starts exactly at the trading-day offset of
calc_start by -lookback (and so no later than it) in incremental mode
and in full mode with an explicit start_date — in full mode without an
explicit start_date the load starts at calc_start itself, the default
start, with no lookback applied; and the rows finally stored are always
restricted to trade_date within [calc_start, calc_end]. -/
theorem c8_lookback_and_range (a : Production.RunTaskArgs)
    (stFilter : List Production.SrcRow → List Production.SrcRow)
    (cs ce ds : Nat)
    (hres : Production.resolveDates a.cal a.mode a.targetDate a.startDate a.endDate
        a.lastComputed a.lookback a.today = some (cs, ce, ds)) :
    ((a.mode = .incremental ∨ a.startDate.isSome = true) →
        ds = a.cal.offset_trading_days cs (-(a.lookback : Int)))
    ∧ ∀ r ∈ (Production.run_task a stFilter).stored,
        cs ≤ r.trade_date ∧ r.trade_date ≤ ce :=
  ⟨fun hmode => Production.resolveDates_lookback a.cal a.mode a.targetDate a.startDate
      a.endDate a.lastComputed a.lookback a.today cs ce ds hres hmode,
   Production.run_task_stored_range a stFilter cs ce ds hres⟩

/-- C8 witness: a concrete incremental run where the load start equals
the trading-day offset and every stored row lies in the range. -/
theorem c8_witness :
    (Production.CMode.incremental = Production.CMode.incremental
        ∨ (none : Option Nat).isSome = true)
    ∧ (0 : Nat) = (⟨[]⟩ : Production.TradingCalendar).offset_trading_days 10 (-(60 : Int))
    ∧ ∀ r ∈ (Production.run_task
        ⟨.incremental, some 10, none, none, none, 10, 60, ⟨[]⟩,
         [⟨1, 10, 5, 5, 5, 5, 10, 1⟩], true, true, true,
         fun _ => some [⟨1, 10, 3⟩], id⟩ id).stored,
        10 ≤ r.trade_date ∧ r.trade_date ≤ 10 := by
  have h := c8_lookback_and_range
    ⟨.incremental, some 10, none, none, none, 10, 60, ⟨[]⟩,
     [⟨1, 10, 5, 5, 5, 5, 10, 1⟩], true, true, true,
     fun _ => some [⟨1, 10, 3⟩], id⟩ id 10 10 0 rfl
  exact ⟨Or.inl rfl, h.1 (Or.inl rfl), h.2⟩

/-- C10: every row stored by run_task carries a quality_flag that is
exactly normal (0), limit-up (1) or limit-down (2); the post-suspension
(4), low-volume (8) and IPO (16) bits are never set and no combined
bitmask value is ever produced. -/
theorem c10_stored_quality_flags (a : Production.RunTaskArgs)
    (stFilter : List Production.SrcRow → List Production.SrcRow)
    (r : Production.StoredRow) (hr : r ∈ (Production.run_task a stFilter).stored) :
    r.quality_flag = Production.QUALITY_NORMAL
    ∨ r.quality_flag = Production.QUALITY_LIMIT_UP
    ∨ r.quality_flag = Production.QUALITY_LIMIT_DOWN := by
  cases hres : Production.resolveDates a.cal a.mode a.targetDate a.startDate a.endDate
      a.lastComputed a.lookback a.today with
  | none =>
    simp only [Production.run_task, hres] at hr
    exact absurd hr (by simp)
  | some triple =>
    obtain ⟨cs, ce, ds⟩ := triple
    simp only [Production.run_task, hres] at hr
    split at hr
    · exact absurd hr (by simp)
    · split at hr
      · exact absurd hr (by simp)
      · split at hr
        · exact absurd hr (by simp)
        · simp only [Production.storeStage, List.mem_map] at hr
          obtain ⟨q, _, rfl⟩ := hr
          exact Production.qualityOf_cases _ _

/-- C10 witness: a concrete run stores a limit-up-flagged row and the
theorem applies to it. -/
theorem c10_witness :
    (⟨1, 10, 3, 1⟩ : Production.StoredRow) ∈ (Production.run_task
      ⟨.incremental, some 10, none, none, none, 10, 60, ⟨[]⟩,
       [⟨1, 10, 5, 5, 5, 5, 10, 1⟩], true, true, true,
       fun _ => some [⟨1, 10, 3⟩], id⟩ id).stored
    ∧ ((⟨1, 10, 3, 1⟩ : Production.StoredRow).quality_flag = Production.QUALITY_NORMAL
       ∨ (⟨1, 10, 3, 1⟩ : Production.StoredRow).quality_flag = Production.QUALITY_LIMIT_UP
       ∨ (⟨1, 10, 3, 1⟩ : Production.StoredRow).quality_flag = Production.QUALITY_LIMIT_DOWN) := by
  have hst : (Production.run_task
      ⟨.incremental, some 10, none, none, none, 10, 60, ⟨[]⟩,
       [⟨1, 10, 5, 5, 5, 5, 10, 1⟩], true, true, true,
       fun _ => some [⟨1, 10, 3⟩], id⟩ id).stored = [⟨1, 10, 3, 1⟩] := rfl
  have hmem : (⟨1, 10, 3, 1⟩ : Production.StoredRow) ∈ (Production.run_task
      ⟨.incremental, some 10, none, none, none, 10, 60, ⟨[]⟩,
       [⟨1, 10, 5, 5, 5, 5, 10, 1⟩], true, true, true,
       fun _ => some [⟨1, 10, 3⟩], id⟩ id).stored := by
    rw [hst]; exact List.mem_singleton_self _
  exact ⟨hmem, c10_stored_quality_flags _ id _ hmem⟩

/-! ## Theorems: DAG executor groundwork (claims C4, C5, C6) -/

namespace Dag

/-- Helper: a successful dict lookup returns a member task with the
looked-up id. -/
theorem findTask_eq_some {d : DagCfg} {tid : Nat} {t : TaskSpec}
    (h : findTask d tid = some t) : t ∈ d ∧ t.task_id = tid := by
  unfold findTask at h
  refine ⟨List.mem_of_find?_eq_some h, ?_⟩
  have hp := List.find?_some h
  simpa using hp

/-- Helper: an id is a task id iff its dict lookup succeeds. -/
theorem mem_ids_iff {d : DagCfg} {tid : Nat} :
    tid ∈ ids d ↔ ∃ t, findTask d tid = some t := by
  constructor
  · intro h
    obtain ⟨t, ht, rfl⟩ := List.mem_map.mp h
    have : (d.find? (fun u => u.task_id == t.task_id)).isSome := by
      rw [List.find?_isSome]
      exact ⟨t, ht, by simp⟩
    obtain ⟨u, hu⟩ := Option.isSome_iff_exists.mp this
    exact ⟨u, hu⟩
  · rintro ⟨t, ht⟩
    obtain ⟨hmem, rfl⟩ := findTask_eq_some ht
    exact List.mem_map_of_mem _ hmem

/-- Helper: with unique task ids the lookup of a member's id returns that
member. -/
theorem findTask_self {d : DagCfg} (hN : (ids d).Nodup) {t : TaskSpec} (ht : t ∈ d) :
    findTask d t.task_id = some t := by
  induction d with
  | nil => cases ht
  | cons a d ih =>
    have hN' : (ids d).Nodup := (List.nodup_cons.mp hN).2
    have hna : a.task_id ∉ ids d := (List.nodup_cons.mp hN).1
    rcases List.mem_cons.mp ht with rfl | hmem
    · unfold findTask
      simp [List.find?]
    · have hne : (a.task_id == t.task_id) = false := by
        rw [beq_eq_false_iff_ne]
        intro he
        exact hna (he ▸ List.mem_map_of_mem (·.task_id) hmem)
      unfold findTask
      rw [List.find?_cons_of_neg _ (by simp [hne])]
      exact ih hN' hmem

/-- Helper: the resolved dependencies of a member task, through depsOfId. -/
theorem depsOfId_of_mem {d : DagCfg} (hN : (ids d).Nodup) {t : TaskSpec} (ht : t ∈ d) :
    depsOfId d t.task_id = resolvedDeps d t := by
  unfold depsOfId
  rw [findTask_self hN ht]

/-- Helper: unres over the empty emission list is the initial in-degree. -/
theorem unres_nil (d : DagCfg) (tid : Nat) : unres d [] tid = indegInit d tid := by
  unfold unres depsOfId indegInit indeg0
  cases findTask d tid <;> simp

/-- Helper: a positive unres count names a task id. -/
theorem mem_ids_of_unres_pos {d : DagCfg} {E : List Nat} {tid : Nat}
    (h : 0 < unres d E tid) : tid ∈ ids d := by
  rw [mem_ids_iff]
  unfold unres depsOfId at h
  cases hf : findTask d tid with
  | none => rw [hf] at h; simp at h
  | some t => exact ⟨t, rfl⟩

/-- Helper: unres is zero exactly when every resolved dependency is
emitted. -/
theorem unres_eq_zero_iff {d : DagCfg} {E : List Nat} {tid : Nat} :
    unres d E tid = 0 ↔ ∀ b ∈ depsOfId d tid, b ∈ E := by
  unfold unres
  rw [show ((((depsOfId d tid).filter (fun b => !decide (b ∈ E))).length : Int) = 0)
      ↔ ((depsOfId d tid).filter (fun b => !decide (b ∈ E))).length = 0 by omega]
  rw [List.length_eq_zero, List.filter_eq_nil_iff]
  constructor
  · intro h b hb
    have := h b hb
    simpa using this
  · intro h b hb
    simpa using h b hb

/-- Helper: unres never goes negative. -/
theorem unres_nonneg (d : DagCfg) (E : List Nat) (tid : Nat) : 0 ≤ unres d E tid := by
  unfold unres
  positivity

/-- Helper: splitting a membership filter over an appended emission list:
for Q disjoint from E, the unemitted count over E splits into the count
over E ++ Q plus the count of entries in Q. -/
theorem filter_split_append (l E Q : List Nat) (hdisj : ∀ x ∈ Q, x ∉ E) :
    (l.filter (fun b => !decide (b ∈ E))).length
      = (l.filter (fun b => !decide (b ∈ E ++ Q))).length
        + (l.filter (fun b => decide (b ∈ Q))).length := by
  induction l with
  | nil => simp
  | cons a l ih =>
    by_cases haE : a ∈ E
    · have haQ : a ∉ Q := fun h => hdisj a h haE
      simp [List.filter, haE, haQ, ih]
    · by_cases haQ : a ∈ Q
      · simp [List.filter, haE, haQ, ih]
        omega
      · have haEQ : a ∉ E ++ Q := by
          intro h
          rcases List.mem_append.mp h with h | h
          · exact haE h
          · exact haQ h
        simp [List.filter, haE, haQ, haEQ, ih]
        omega

/-- Helper: unres over an extended emission list. -/
theorem unres_append {d : DagCfg} {E Q : List Nat} (hdisj : ∀ x ∈ Q, x ∉ E) (tid : Nat) :
    unres d E tid = unres d (E ++ Q) tid + inCnt d Q tid := by
  unfold unres inCnt
  rw [filter_split_append (depsOfId d tid) E Q hdisj]
  push_cast
  ring

/-- Helper: the post-state of stepEvents decrements each id once per
occurrence among the events. -/
theorem stepEvents_fst (evs : List Nat) : ∀ (f : Nat → Int) (y : Nat),
    (stepEvents f evs).1 y = f y - evs.count y := by
  induction evs with
  | nil => intro f y; simp [stepEvents]
  | cons x rest ih =>
    intro f y
    have h1 : (stepEvents f (x :: rest)).1 = (stepEvents (decr f x) rest).1 := by
      conv_lhs => unfold stepEvents
      by_cases hz : decr f x x = 0 <;> simp [hz]
    rw [h1, ih]
    unfold decr
    by_cases hxy : y = x
    · subst hxy
      simp [List.count_cons]
      omega
    · have : (x == y) = false := by
        rw [beq_eq_false_iff_ne]
        exact fun h => hxy h.symm
      simp [List.count_cons, hxy, this]

/-- Helper: an id enters the queue produced by stepEvents exactly when
its running count passes through zero during the events: its entry value
is positive and at most its number of decrement events. -/
theorem stepEvents_mem (evs : List Nat) : ∀ (f : Nat → Int) (y : Nat),
    y ∈ (stepEvents f evs).2 ↔ 1 ≤ f y ∧ f y ≤ (evs.count y : Int) := by
  induction evs with
  | nil =>
    intro f y
    simp only [stepEvents, List.count_nil, Nat.cast_zero, List.not_mem_nil, false_iff]
    omega
  | cons x rest ih =>
    intro f y
    have h2 : (stepEvents f (x :: rest)).2
        = if decr f x x = 0 then x :: (stepEvents (decr f x) rest).2
          else (stepEvents (decr f x) rest).2 := by
      conv_lhs => unfold stepEvents
      by_cases hz : decr f x x = 0 <;> simp [hz]
    rw [h2]
    have hdx : decr f x x = f x - 1 := by unfold decr; simp
    by_cases hxy : y = x
    · subst hxy
      have hdy : decr f y y = f y - 1 := hdx
      have hcnt : ((y :: rest).count y : Int) = (rest.count y : Int) + 1 := by
        simp [List.count_cons]
      by_cases hz : decr f y y = 0
      · rw [if_pos hz]
        simp only [List.mem_cons, true_or, true_iff]
        rw [hdy] at hz
        constructor
        · omega
        · rw [hcnt]
          have : (0 : Int) ≤ rest.count y := by positivity
          omega
      · rw [if_neg hz, ih, hdy, hcnt]
        rw [hdy] at hz
        constructor
        · rintro ⟨ha, hb⟩
          exact ⟨by omega, by omega⟩
        · rintro ⟨ha, hb⟩
          exact ⟨by omega, by omega⟩
    · have hdy : decr f x y = f y := by
        unfold decr
        simp [hxy]
      have hcnt : ((x :: rest).count y : Int) = (rest.count y : Int) := by
        have : (x == y) = false := by
          rw [beq_eq_false_iff_ne]
          exact fun h => hxy h.symm
        simp [List.count_cons, this]
      by_cases hz : decr f x x = 0
      · rw [if_pos hz]
        simp only [List.mem_cons, hxy, false_or]
        rw [ih, hdy, hcnt]
      · rw [if_neg hz, ih, hdy, hcnt]

/-- Helper: a constant map contains only its constant. -/
theorem count_map_const {α : Type} (c y : Nat) (l : List α) :
    (l.map (fun _ => c)).count y = if c = y then l.length else 0 := by
  induction l with
  | nil => simp
  | cons a l ih =>
    simp only [List.map_cons, List.count_cons, ih, beq_iff_eq]
    by_cases hcy : c = y <;> simp [hcy]

/-- Helper: counting an id among the flatMap form of the dependents list
over a task suffix with unique ids. -/
theorem count_dependents_aux (d : DagCfg) (q y : Nat) :
    ∀ ns : List TaskSpec, (ns.map (·.task_id)).Nodup →
      ((ns.flatMap (fun n => ((resolvedDeps d n).filter (fun b => b == q)).map
          (fun _ => n.task_id))).count y)
        = match ns.find? (fun t => t.task_id == y) with
          | some t => (resolvedDeps d t).count q
          | none => 0 := by
  intro ns
  induction ns with
  | nil => intro _; simp
  | cons n rest ih =>
    intro hN
    have hN' : (rest.map (·.task_id)).Nodup := (List.nodup_cons.mp hN).2
    have hnn : n.task_id ∉ rest.map (·.task_id) := (List.nodup_cons.mp hN).1
    rw [List.flatMap_cons, List.count_append, ih hN']
    by_cases hy : n.task_id = y
    · rw [List.find?_cons_of_pos _ (by simp [hy])]
      have hrest : rest.find? (fun t => t.task_id == y) = none := by
        rw [List.find?_eq_none]
        intro t ht
        simp only [beq_iff_eq]
        intro he
        exact hnn ((hy.trans he.symm) ▸ List.mem_map_of_mem (·.task_id) ht)
      have hcnt : ((resolvedDeps d n).filter (fun b => b == q)).length
          = (resolvedDeps d n).count q := (List.countP_eq_length_filter _ _).symm
      simp [hrest, count_map_const, hy, hcnt]
    · rw [List.find?_cons_of_neg _ (by simp [hy])]
      simp [count_map_const, List.count_replicate, hy]

/-- Helper: counting an id among the dependents of a popped task id. -/
theorem count_dependents {d : DagCfg} (hN : (ids d).Nodup) (q y : Nat) :
    (dependents d q).count y
      = match findTask d y with
        | some t => (resolvedDeps d t).count q
        | none => 0 :=
  count_dependents_aux d q y d hN

/-- Helper: splitting a membership filter along a cons on the right. -/
theorem filter_mem_cons_length (q : Nat) (Q : List Nat) (hq : q ∉ Q) :
    ∀ l : List Nat, (l.filter (fun b => decide (b ∈ q :: Q))).length
      = l.count q + (l.filter (fun b => decide (b ∈ Q))).length := by
  intro l
  induction l with
  | nil => simp
  | cons a l ih =>
    rw [List.filter_cons, List.filter_cons, List.count_cons]
    by_cases haq : a = q
    · subst haq
      have h1 : decide (a ∈ a :: Q) = true := by simp
      have h2 : decide (a ∈ Q) = false := by simpa using hq
      rw [h1, h2]
      simp only [Bool.false_eq_true, eq_self_iff_true, beq_self_eq_true, if_true,
        if_false, List.length_cons]
      rw [ih]
      omega
    · by_cases haQ : a ∈ Q
      · have h1 : decide (a ∈ q :: Q) = true := by simp [haQ]
        have h2 : decide (a ∈ Q) = true := by simpa using haQ
        have h3 : (a == q) = false := by simpa using haq
        rw [h1, h2, h3]
        simp only [Bool.false_eq_true, eq_self_iff_true, if_true, if_false,
          List.length_cons]
        rw [ih]
        omega
      · have h1 : decide (a ∈ q :: Q) = false := by simp [haq, haQ]
        have h2 : decide (a ∈ Q) = false := by simpa using haQ
        have h3 : (a == q) = false := by simpa using haq
        rw [h1, h2, h3]
        simp only [Bool.false_eq_true, eq_self_iff_true, if_true, if_false]
        rw [ih]
        omega

/-- Helper: the total decrement count an id receives while one layer is
processed equals the number of its resolved dependencies inside the
layer. -/
theorem count_layerEvents {d : DagCfg} (hN : (ids d).Nodup) :
    ∀ Q : List Nat, Q.Nodup → ∀ y : Nat,
      (layerEvents d Q).count y = inCnt d Q y := by
  intro Q
  induction Q with
  | nil =>
    intro _ y
    simp [layerEvents, inCnt]
  | cons q Q ih =>
    intro hQ y
    have hq : q ∉ Q := (List.nodup_cons.mp hQ).1
    have hQ' : Q.Nodup := (List.nodup_cons.mp hQ).2
    have hle : layerEvents d (q :: Q) = dependents d q ++ layerEvents d Q := by
      simp [layerEvents]
    rw [hle, List.count_append, ih hQ' y, count_dependents hN q y]
    unfold inCnt depsOfId
    cases findTask d y with
    | none => simp
    | some t =>
      simp only
      rw [filter_mem_cons_length q Q hq (resolvedDeps d t)]

/-- Helper: the queue produced by stepEvents has no duplicates. -/
theorem stepEvents_nodup (evs : List Nat) : ∀ f : Nat → Int,
    (stepEvents f evs).2.Nodup := by
  induction evs with
  | nil => intro f; simp [stepEvents]
  | cons x rest ih =>
    intro f
    have h2 : (stepEvents f (x :: rest)).2
        = if decr f x x = 0 then x :: (stepEvents (decr f x) rest).2
          else (stepEvents (decr f x) rest).2 := by
      conv_lhs => unfold stepEvents
      by_cases hz : decr f x x = 0 <;> simp [hz]
    rw [h2]
    by_cases hz : decr f x x = 0
    · rw [if_pos hz]
      refine List.nodup_cons.mpr ⟨?_, ih _⟩
      rw [stepEvents_mem]
      rw [hz]
      omega
    · rw [if_neg hz]
      exact ih _

/-- Helper: membership in the initial queue is having initial in-degree
zero. -/
theorem mem_initQueue_iff {d : DagCfg} (hN : (ids d).Nodup) {t : TaskSpec} (ht : t ∈ d) :
    t.task_id ∈ initQueue d ↔ indeg0 d t = 0 := by
  unfold initQueue
  constructor
  · intro h
    obtain ⟨u, hu, he⟩ := List.mem_map.mp h
    have humem : u ∈ d := (List.mem_filter.mp hu).1
    have hz : indeg0 d u = 0 := by simpa using (List.mem_filter.mp hu).2
    have huts : u = t := by
      have h1 := findTask_self hN humem
      have h2 := findTask_self hN ht
      rw [he] at h1
      rw [h1] at h2
      exact Option.some.inj h2
    rwa [← huts]
  · intro hz
    exact List.mem_map_of_mem _ (List.mem_filter.mpr ⟨ht, by simpa using hz⟩)

/-- Helper: the invariant holds at loop entry in both Kahn loops. -/
theorem KInv.init {d : DagCfg} (hN : (ids d).Nodup) :
    KInv d (indegInit d) [] (initQueue d) := by
  have hQsub : ∀ x ∈ initQueue d, x ∈ ids d := by
    intro x hx
    obtain ⟨u, hu, rfl⟩ := List.mem_map.mp hx
    exact List.mem_map_of_mem _ (List.mem_filter.mp hu).1
  refine ⟨?_, ?_, hQsub, ?_, ?_, ?_, ?_⟩
  · simp only [List.nil_append]
    exact hN.sublist ((List.filter_sublist d).map _)
  · intro x hx
    cases hx
  · intro tid
    exact (unres_nil d tid).symm
  · intro x hx
    obtain ⟨u, hu, rfl⟩ := List.mem_map.mp hx
    have humem : u ∈ d := (List.mem_filter.mp hu).1
    have hz : indeg0 d u = 0 := by simpa using (List.mem_filter.mp hu).2
    rw [unres_nil]
    unfold indegInit
    rw [findTask_self hN humem]
    simpa using hz
  · intro x hx
    cases hx
  · intro t ht _ hq
    have hnz : indeg0 d t ≠ 0 := by
      intro hz
      exact hq ((mem_initQueue_iff hN ht).mpr hz)
    unfold indegInit
    rw [findTask_self hN ht]
    show (0 : Int) < (indeg0 d t : Int)
    omega

/-- Helper: processing one whole layer preserves the Kahn invariant,
emitting the layer and producing the next queue. -/
theorem KInv.step {d : DagCfg} (hN : (ids d).Nodup)
    {f : Nat → Int} {E Q : List Nat} (inv : KInv d f E Q) :
    KInv d (processLayer d f Q).1 (E ++ Q) (processLayer d f Q).2 := by
  have hQnd : Q.Nodup := inv.nodup.of_append_right
  have hdisj : ∀ x ∈ Q, x ∉ E := by
    intro x hxQ hxE
    exact (List.disjoint_of_nodup_append inv.nodup) hxE hxQ
  have hcount : ∀ y, (processLayer d f Q).1 y = unres d (E ++ Q) y := by
    intro y
    unfold processLayer
    rw [stepEvents_fst, inv.count y, count_layerEvents hN Q hQnd y, unres_append hdisj y]
    ring
  have hmemQ2 : ∀ y, y ∈ (processLayer d f Q).2
      ↔ 1 ≤ unres d E y ∧ unres d E y ≤ (inCnt d Q y : Int) := by
    intro y
    unfold processLayer
    rw [stepEvents_mem, inv.count y, count_layerEvents hN Q hQnd y]
  have hfreshQ2 : ∀ y ∈ (processLayer d f Q).2, y ∉ E ++ Q := by
    intro y hy hmem
    have h1 := (hmemQ2 y).mp hy
    rcases List.mem_append.mp hmem with h | h
    · have := inv.edone y h
      omega
    · have := inv.qdone y h
      omega
  constructor
  · refine List.Nodup.append inv.nodup ?_ ?_
    · unfold processLayer
      exact stepEvents_nodup _ _
    · intro a ha ha2
      exact hfreshQ2 a ha2 ha
  · intro x hx
    rcases List.mem_append.mp hx with h | h
    · exact inv.subE x h
    · exact inv.subQ x h
  · intro x hx
    have h1 := (hmemQ2 x).mp hx
    have h2 : 0 < unres d E x := by omega
    exact mem_ids_of_unres_pos h2
  · exact hcount
  · intro x hx
    have h1 := (hmemQ2 x).mp hx
    have h2 := hcount x
    have h3 := unres_append (d := d) hdisj x
    have h4 := unres_nonneg d (E ++ Q) x
    omega
  · intro x hx
    have h0 : unres d E x = 0 := by
      rcases List.mem_append.mp hx with h | h
      · exact inv.edone x h
      · exact inv.qdone x h
    have h3 := unres_append (d := d) hdisj x
    have h4 := unres_nonneg d (E ++ Q) x
    have h5 : (0 : Int) ≤ inCnt d Q x := by positivity
    omega
  · intro t ht hE hQ2
    have hEe : t.task_id ∉ E := fun h => hE (List.mem_append.mpr (Or.inl h))
    have hEq : t.task_id ∉ Q := fun h => hE (List.mem_append.mpr (Or.inr h))
    have hpos := inv.fresh t ht hEe hEq
    rw [inv.count] at hpos
    have h6 : ¬(1 ≤ unres d E t.task_id
        ∧ unres d E t.task_id ≤ (inCnt d Q t.task_id : Int)) :=
      fun hc => hQ2 ((hmemQ2 _).mpr hc)
    push_neg at h6
    have h7 := h6 (by omega)
    have h2 := hcount t.task_id
    have h3 := unres_append (d := d) hdisj t.task_id
    omega

/-- Helper: a node whose unres count is positive has a resolved,
unemitted dependency that is itself a task of the DAG. -/
theorem exists_unemitted_dep {d : DagCfg} {E : List Nat} {x : Nat}
    (hpos : 0 < unres d E x) :
    ∃ b, DepRel d x b ∧ b ∉ E := by
  have hnall : ¬ ∀ b ∈ depsOfId d x, b ∈ E := by
    intro hall
    have := unres_eq_zero_iff.mpr hall
    omega
  push_neg at hnall
  obtain ⟨b, hb, hbE⟩ := hnall
  refine ⟨b, ?_, hbE⟩
  unfold depsOfId at hb
  cases hf : findTask d x with
  | none =>
    rw [hf] at hb
    cases hb
  | some w =>
    rw [hf] at hb
    obtain ⟨hwmem, hwid⟩ := findTask_eq_some hf
    unfold resolvedDeps at hb
    have hb2 := List.mem_filter.mp hb
    exact ⟨w, hwmem, hwid, hb2.1, by simpa using hb2.2⟩

/-- Helper: a resolved dependency end point is a task id. -/
theorem DepRel.mem_ids {d : DagCfg} {a b : Nat} (h : DepRel d a b) : b ∈ ids d := by
  obtain ⟨t, _, _, _, hb⟩ := h
  exact hb

/-- Helper: a resolved dependency source is a task id. -/
theorem DepRel.mem_ids_left {d : DagCfg} {a b : Nat} (h : DepRel d a b) : a ∈ ids d := by
  obtain ⟨t, ht, rfl, _, _⟩ := h
  exact List.mem_map_of_mem _ ht

/-- Helper: when the queue is empty and the DAG is acyclic, every task
has been emitted — the key completeness step, by well-founded descent
along unemitted dependencies. -/
theorem stuck_complete {d : DagCfg} (hacy : Acyclic d)
    {f : Nat → Int} {E : List Nat} (inv : KInv d f E []) :
    ∀ t ∈ d, t.task_id ∈ E := by
  have main : ∀ x : Nat, (∃ u ∈ d, u.task_id = x) → x ∈ E := by
    intro x
    have hax := hacy.apply x
    induction hax with
    | intro x hx ih =>
      rintro ⟨u, hu, rfl⟩
      by_contra hne
      have hpos : 0 < f u.task_id := inv.fresh u hu hne (by simp)
      rw [inv.count] at hpos
      obtain ⟨b, hdep, hbE⟩ := exists_unemitted_dep hpos
      have hbtask : ∃ w ∈ d, w.task_id = b := by
        obtain ⟨w, hw, heq⟩ := List.mem_map.mp hdep.mem_ids
        exact ⟨w, hw, heq⟩
      exact hbE (ih b hdep hbtask)
  intro t ht
  exact main t.task_id ⟨t, ht, rfl⟩

/-- Helper: a duplicate-free subset is no longer than its superset. -/
theorem length_le_of_nodup_subset {E F : List Nat} (hE : E.Nodup) (hsub : E ⊆ F) :
    E.length ≤ F.length := (List.Nodup.subperm hE hsub).length_le

/-- Helper: the layered Kahn loop emits every task of an acyclic DAG
(the fuel length d + 1 is enough because each queue round emits at least
one fresh task id). -/
theorem kahnAux_complete {d : DagCfg} (hN : (ids d).Nodup) (hacy : Acyclic d) :
    ∀ (fuel : Nat) (f : Nat → Int) (Q E : List Nat), KInv d f E Q →
      d.length < fuel + E.length →
      ∀ t ∈ d, t.task_id ∈ E ++ (kahnAux d f Q fuel).flatten := by
  intro fuel
  induction fuel with
  | zero =>
    intro f Q E inv hlen t ht
    exfalso
    have hEnd : E.Nodup := inv.nodup.of_append_left
    have hsub : E ⊆ ids d := fun x hx => inv.subE x hx
    have h1 := length_le_of_nodup_subset hEnd hsub
    have h2 : (ids d).length = d.length := List.length_map _ _
    omega
  | succ fuel ih =>
    intro f Q E inv hlen t ht
    by_cases hq : Q.isEmpty = true
    · have hqnil : Q = [] := List.isEmpty_iff.mp hq
      subst hqnil
      unfold kahnAux
      simp only [List.isEmpty_nil, if_true, List.flatten_nil, List.append_nil]
      exact stuck_complete hacy inv t ht
    · unfold kahnAux
      rw [if_neg hq]
      have hqne : Q ≠ [] := fun h => hq (by simp [h])
      have hstep := KInv.step hN inv
      have hlen' : d.length < fuel + (E ++ Q).length := by
        have hq1 : 1 ≤ Q.length := by
          cases Q
          · exact absurd rfl hqne
          · simp
        rw [List.length_append]
        omega
      have hmem := ih (processLayer d f Q).1 (processLayer d f Q).2 (E ++ Q) hstep hlen' t ht
      rw [List.flatten_cons, ← List.append_assoc]
      exact hmem

/-- Helper: the emitted layers never repeat a task id. -/
theorem kahnAux_nodup {d : DagCfg} (hN : (ids d).Nodup) :
    ∀ (fuel : Nat) (f : Nat → Int) (Q E : List Nat), KInv d f E Q →
      (E ++ (kahnAux d f Q fuel).flatten).Nodup := by
  intro fuel
  induction fuel with
  | zero =>
    intro f Q E inv
    show (E ++ ([] : List (List Nat)).flatten).Nodup
    simpa using inv.nodup.of_append_left
  | succ fuel ih =>
    intro f Q E inv
    by_cases hq : Q.isEmpty = true
    · unfold kahnAux
      rw [if_pos hq]
      simpa using inv.nodup.of_append_left
    · unfold kahnAux
      rw [if_neg hq]
      rw [List.flatten_cons, ← List.append_assoc]
      exact ih _ _ _ (KInv.step hN inv)

/-- Helper: the emitted layers are well-formed: every member of a layer
is a task id whose resolved dependencies were all emitted in strictly
earlier layers. -/
theorem kahnAux_good {d : DagCfg} (hN : (ids d).Nodup) :
    ∀ (fuel : Nat) (f : Nat → Int) (Q E : List Nat), KInv d f E Q →
      GoodLayers d E (kahnAux d f Q fuel) := by
  intro fuel
  induction fuel with
  | zero =>
    intro f Q E inv
    show GoodLayers d E []
    trivial
  | succ fuel ih =>
    intro f Q E inv
    by_cases hq : Q.isEmpty = true
    · unfold kahnAux
      rw [if_pos hq]
      trivial
    · unfold kahnAux
      rw [if_neg hq]
      show (∀ x ∈ Q, x ∈ ids d ∧ ∀ b ∈ depsOfId d x, b ∈ E)
        ∧ GoodLayers d (E ++ Q)
            (kahnAux d (processLayer d f Q).1 (processLayer d f Q).2 fuel)
      refine ⟨?_, ih _ _ _ (KInv.step hN inv)⟩
      intro x hx
      refine ⟨inv.subQ x hx, ?_⟩
      intro b hb
      exact unres_eq_zero_iff.mp (inv.qdone x hx) b hb

/-- Helper: the validate inner loop only enqueues ids of the iterated
nodes. -/
theorem vStep_subset (tid : Nat) :
    ∀ (ns : List TaskSpec) (f : Nat → Int), (vStep ns f tid).2 ⊆ ns.map (·.task_id) := by
  intro ns
  induction ns with
  | nil =>
    intro f x hx
    simp [vStep] at hx
  | cons n rest ih =>
    intro f x hx
    by_cases hc : tid ∈ n.depends_on
    · by_cases hz : decr f n.task_id n.task_id = 0
      · have h2 : (vStep (n :: rest) f tid).2
            = n.task_id :: (vStep rest (decr f n.task_id) tid).2 := by
          conv_lhs => unfold vStep
          simp [hc, hz]
        rw [h2] at hx
        rcases List.mem_cons.mp hx with rfl | hx2
        · simp
        · exact List.mem_cons_of_mem _ (ih _ hx2)
      · have h2 : (vStep (n :: rest) f tid).2 = (vStep rest (decr f n.task_id) tid).2 := by
          conv_lhs => unfold vStep
          simp [hc, hz]
        rw [h2] at hx
        exact List.mem_cons_of_mem _ (ih _ hx)
    · have h2 : (vStep (n :: rest) f tid).2 = (vStep rest f tid).2 := by
        conv_lhs => unfold vStep
        simp [hc]
      rw [h2] at hx
      exact List.mem_cons_of_mem _ (ih _ hx)

/-- Helper: the validate inner loop decrements an id once per node that
carries the id and lists the popped tid among its dependencies. -/
theorem vStep_fst (tid : Nat) :
    ∀ (ns : List TaskSpec) (f : Nat → Int) (y : Nat),
      (vStep ns f tid).1 y
        = f y - ((ns.filter
            (fun n => n.task_id == y && n.depends_on.contains tid)).length : Int) := by
  intro ns
  induction ns with
  | nil =>
    intro f y
    simp [vStep]
  | cons n rest ih =>
    intro f y
    rw [List.filter_cons]
    by_cases hc : tid ∈ n.depends_on
    · have h1 : (vStep (n :: rest) f tid).1 = (vStep rest (decr f n.task_id) tid).1 := by
        conv_lhs => unfold vStep
        by_cases hz : decr f n.task_id n.task_id = 0 <;> simp [hc, hz]
      rw [h1, ih]
      by_cases hy : n.task_id = y
      · subst hy
        have hcond : (n.task_id == n.task_id && n.depends_on.contains tid) = true := by
          simp [hc]
        rw [hcond]
        have hd : decr f n.task_id n.task_id = f n.task_id - 1 := by simp [decr]
        rw [hd]
        simp only [eq_self_iff_true, if_true, List.length_cons]
        push_cast
        ring
      · have hcond : (n.task_id == y && n.depends_on.contains tid) = false := by
          simp [hy]
        rw [hcond]
        have hd : decr f n.task_id y = f y := by
          simp only [decr]
          rw [if_neg (fun h => hy h.symm)]
        rw [hd]
        simp only [Bool.false_eq_true, if_false]
    · have h1 : (vStep (n :: rest) f tid).1 = (vStep rest f tid).1 := by
        conv_lhs => unfold vStep
        simp [hc]
      rw [h1, ih]
      have hcond : (n.task_id == y && n.depends_on.contains tid) = false := by
        simp [hc]
      rw [hcond]
      simp only [Bool.false_eq_true, if_false]

/-- Helper: membership and distinctness of the queue built by the
validate inner loop: an id is enqueued exactly when some node carries it
with the popped tid among its dependencies and its entry count is 1. -/
theorem vStep_spec (tid : Nat) :
    ∀ (ns : List TaskSpec), (ns.map (·.task_id)).Nodup → ∀ (f : Nat → Int) (y : Nat),
      (y ∈ (vStep ns f tid).2
        ↔ (∃ n ∈ ns, n.task_id = y ∧ tid ∈ n.depends_on) ∧ f y = 1)
      ∧ (vStep ns f tid).2.Nodup := by
  intro ns
  induction ns with
  | nil =>
    intro _ f y
    constructor
    · simp [vStep]
    · simp [vStep]
  | cons n rest ih =>
    intro hN f y
    have hN' : (rest.map (·.task_id)).Nodup := (List.nodup_cons.mp hN).2
    have hnn : n.task_id ∉ rest.map (·.task_id) := (List.nodup_cons.mp hN).1
    by_cases hc : tid ∈ n.depends_on
    · have hcm : tid ∈ n.depends_on := hc
      by_cases hz : decr f n.task_id n.task_id = 0
      · have h2 : (vStep (n :: rest) f tid).2
            = n.task_id :: (vStep rest (decr f n.task_id) tid).2 := by
          conv_lhs => unfold vStep
          simp [hc, hz]
        have hf1 : f n.task_id = 1 := by
          have : decr f n.task_id n.task_id = f n.task_id - 1 := by simp [decr]
          omega
        constructor
        · rw [h2]
          by_cases hy : y = n.task_id
          · subst hy
            simp only [List.mem_cons, true_or, true_iff]
            exact ⟨⟨n, by simp, rfl, hcm⟩, hf1⟩
          · have hdy : decr f n.task_id y = f y := by
              simp [decr, hy]
            constructor
            · intro hmem
              rcases List.mem_cons.mp hmem with h | h
              · exact absurd h hy
              · have := ((ih hN' (decr f n.task_id) y).1).mp h
                rw [hdy] at this
                obtain ⟨⟨u, hu, hid, hdep⟩, hfy⟩ := this
                exact ⟨⟨u, List.mem_cons_of_mem _ hu, hid, hdep⟩, hfy⟩
            · rintro ⟨⟨u, hu, hid, hdep⟩, hfy⟩
              rcases List.mem_cons.mp hu with rfl | hu2
              · exact absurd hid.symm hy
              · refine List.mem_cons_of_mem _ (((ih hN' (decr f n.task_id) y).1).mpr ?_)
                rw [hdy]
                exact ⟨⟨u, hu2, hid, hdep⟩, hfy⟩
        · rw [h2]
          refine List.nodup_cons.mpr ⟨?_, (ih hN' (decr f n.task_id) y).2⟩
          intro hmem
          exact hnn (vStep_subset tid rest _ hmem)
      · have h2 : (vStep (n :: rest) f tid).2 = (vStep rest (decr f n.task_id) tid).2 := by
          conv_lhs => unfold vStep
          simp [hc, hz]
        have hfne : f n.task_id ≠ 1 := by
          intro h
          apply hz
          simp [decr, h]
        constructor
        · rw [h2]
          by_cases hy : y = n.task_id
          · subst hy
            constructor
            · intro hmem
              have hid := vStep_subset tid rest _ hmem
              exact absurd hid hnn
            · rintro ⟨_, hfy⟩
              exact absurd hfy hfne
          · have hdy : decr f n.task_id y = f y := by
              simp [decr, hy]
            rw [(ih hN' (decr f n.task_id) y).1, hdy]
            constructor
            · rintro ⟨⟨u, hu, hid, hdep⟩, hfy⟩
              exact ⟨⟨u, List.mem_cons_of_mem _ hu, hid, hdep⟩, hfy⟩
            · rintro ⟨⟨u, hu, hid, hdep⟩, hfy⟩
              rcases List.mem_cons.mp hu with rfl | hu2
              · exact absurd hid.symm hy
              · exact ⟨⟨u, hu2, hid, hdep⟩, hfy⟩
        · rw [h2]
          exact (ih hN' (decr f n.task_id) y).2
    · have hcm : tid ∉ n.depends_on := hc
      have h2 : (vStep (n :: rest) f tid).2 = (vStep rest f tid).2 := by
        conv_lhs => unfold vStep
        simp [hc]
      constructor
      · rw [h2, (ih hN' f y).1]
        constructor
        · rintro ⟨⟨u, hu, hid, hdep⟩, hfy⟩
          exact ⟨⟨u, List.mem_cons_of_mem _ hu, hid, hdep⟩, hfy⟩
        · rintro ⟨⟨u, hu, hid, hdep⟩, hfy⟩
          rcases List.mem_cons.mp hu with rfl | hu2
          · exact absurd hdep hcm
          · exact ⟨⟨u, hu2, hid, hdep⟩, hfy⟩
      · rw [h2]
        exact (ih hN' f y).2

/-- Helper: the id-keyed filter is empty when the id is no task. -/
theorem filter_id_none {d : DagCfg} (P : TaskSpec → Bool) {y : Nat} (hy : y ∉ ids d) :
    d.filter (fun n => n.task_id == y && P n) = [] := by
  rw [List.filter_eq_nil_iff]
  intro n hn hcond
  have h1 : n.task_id = y := by
    have := ((Bool.and_eq_true _ _).mp hcond).1
    simpa using this
  exact hy (h1 ▸ List.mem_map_of_mem (fun u => u.task_id) hn)

/-- Helper: with unique task ids the id-keyed filter finds at most the
looked-up task. -/
theorem filter_id_some {y : Nat} (P : TaskSpec → Bool) :
    ∀ (d : DagCfg), (ids d).Nodup → ∀ {t : TaskSpec}, findTask d y = some t →
      d.filter (fun n => n.task_id == y && P n) = if P t then [t] else [] := by
  intro d
  induction d with
  | nil =>
    intro _ t ht
    simp [findTask] at ht
  | cons a rest ih =>
    intro hN t ht
    have hN2 : (ids rest).Nodup := (List.nodup_cons.mp hN).2
    have hna : a.task_id ∉ ids rest := (List.nodup_cons.mp hN).1
    by_cases ha : (a.task_id == y) = true
    · have hay : a.task_id = y := by simpa using ha
      have hta : t = a := by
        unfold findTask at ht
        rw [List.find?_cons, ha] at ht
        exact (Option.some.inj ht).symm
      subst hta
      rw [List.filter_cons]
      have hrest : rest.filter (fun n => n.task_id == y && P n) = [] := by
        apply filter_id_none
        rw [← hay]
        exact hna
      rw [hrest]
      by_cases hp : P t = true
      · rw [if_pos (by simp [ha, hp]), if_pos hp]
      · have hp2 : P t = false := by revert hp; cases P t <;> simp
        rw [if_neg (by simp [hp2]), if_neg (by simp [hp2])]
    · have ha2 : (a.task_id == y) = false := by revert ha; cases a.task_id == y <;> simp
      unfold findTask at ht
      rw [List.find?_cons, ha2] at ht
      rw [List.filter_cons, if_neg (by simp [ha2])]
      exact ih hN2 ht

/-- Helper: the in-Q dependency count of an id that is no task is zero. -/
theorem inCnt_none {d : DagCfg} (Q : List Nat) {y : Nat} (hy : findTask d y = none) :
    inCnt d Q y = 0 := by
  unfold inCnt depsOfId
  rw [hy]
  simp

/-- Helper: with duplicate-free dependency lists, the popped-tid
dependency count of a task is one exactly when tid is among its
dependencies. -/
theorem inCnt_single_some {d : DagCfg} (hD : ∀ t ∈ d, t.depends_on.Nodup)
    {tid : Nat} (htid : tid ∈ ids d) {y : Nat} {t : TaskSpec} (ht : findTask d y = some t) :
    inCnt d [tid] y = if tid ∈ t.depends_on then 1 else 0 := by
  have htmem : t ∈ d := (findTask_eq_some ht).1
  have hnd : t.depends_on.Nodup := hD t htmem
  unfold inCnt depsOfId
  rw [ht]
  unfold resolvedDeps
  rw [List.filter_filter]
  have hcong : t.depends_on.filter
        (fun b => decide (b ∈ [tid]) && decide (b ∈ ids d))
      = t.depends_on.filter (fun b => b == tid) := by
    apply List.filter_congr
    intro b _
    by_cases hb : b = tid
    · subst hb
      simp [htid]
    · simp [hb]
  rw [hcong, ← List.countP_eq_length_filter]
  by_cases hm : tid ∈ t.depends_on
  · rw [if_pos hm]
    exact List.count_eq_one_of_mem hnd hm
  · rw [if_neg hm]
    exact List.count_eq_zero.mpr hm

/-- Helper: the popped-tid dependency count of a task listing tid is
positive. -/
theorem inCnt_single_pos {d : DagCfg} {tid y : Nat} {t : TaskSpec}
    (ht : findTask d y = some t) (htid : tid ∈ ids d) (hm : tid ∈ t.depends_on) :
    1 ≤ inCnt d [tid] y := by
  unfold inCnt depsOfId
  rw [ht]
  show 1 ≤ ((resolvedDeps d t).filter (fun b => decide (b ∈ [tid]))).length
  have hmem : tid ∈ (resolvedDeps d t).filter (fun b => decide (b ∈ [tid])) := by
    rw [List.mem_filter]
    refine ⟨?_, by simp⟩
    unfold resolvedDeps
    exact List.mem_filter.mpr ⟨hm, by simpa using htid⟩
  have h1 := List.length_pos.mpr (List.ne_nil_of_mem hmem)
  omega

/-- Helper: a list holding two distinct elements has length at least
two. -/
theorem two_le_length_of_mem {l : List Nat} {a b : Nat}
    (ha : a ∈ l) (hb : b ∈ l) (hab : a ≠ b) : 2 ≤ l.length := by
  obtain ⟨s, u, rfl⟩ := List.append_of_mem ha
  rcases List.mem_append.mp hb with h | h
  · have h1 : 0 < s.length := List.length_pos.mpr (List.ne_nil_of_mem h)
    simp only [List.length_append, List.length_cons]
    omega
  · rcases List.mem_cons.mp h with h | h
    · exact absurd h.symm hab
    · have h1 : 0 < u.length := List.length_pos.mpr (List.ne_nil_of_mem h)
      simp only [List.length_append, List.length_cons]
      omega

/-- Helper: a resolved dependency is among the dependency list of its
source task id. -/
theorem DepRel.mem_depsOfId {d : DagCfg} (hN : (ids d).Nodup) {x y : Nat}
    (h : DepRel d x y) : y ∈ depsOfId d x := by
  obtain ⟨t, ht, rfl, hyb, hyid⟩ := h
  rw [depsOfId_of_mem hN ht]
  unfold resolvedDeps
  exact List.mem_filter.mpr ⟨hyb, by simpa using hyid⟩

/-- Helper: with unique ids and duplicate-free dependency lists, the
per-node membership decrement of the validate loop equals the
per-occurrence count of the popped tid. -/
theorem vcnt_eq_inCnt {d : DagCfg} (hN : (ids d).Nodup)
    (hD : ∀ t ∈ d, t.depends_on.Nodup) {tid : Nat} (htid : tid ∈ ids d) (y : Nat) :
    ((d.filter (fun n => n.task_id == y && n.depends_on.contains tid)).length : Int)
      = inCnt d [tid] y := by
  cases hf : findTask d y with
  | none =>
    have hy : y ∉ ids d := by
      rw [mem_ids_iff]
      rintro ⟨t, ht⟩
      rw [hf] at ht
      cases ht
    rw [filter_id_none _ hy, inCnt_none _ hf]
    simp
  | some t =>
    rw [filter_id_some _ d hN hf, inCnt_single_some hD htid hf]
    by_cases hm : tid ∈ t.depends_on
    · rw [if_pos (by simpa using hm), if_pos hm]
      simp
    · rw [if_neg (by simpa using hm), if_neg hm]
      simp

/-- Helper: popping one queue head preserves the Kahn invariant in the
validate loop (duplicate-free dependency lists make the membership
decrement match the occurrence count). -/
theorem KInv.vstep {d : DagCfg} (hN : (ids d).Nodup) (hD : ∀ t ∈ d, t.depends_on.Nodup)
    {f : Nat → Int} {E : List Nat} {tid : Nat} {rest : List Nat}
    (inv : KInv d f E (tid :: rest)) :
    KInv d (vStep d f tid).1 (E ++ [tid]) (rest ++ (vStep d f tid).2) := by
  have htid : tid ∈ ids d := inv.subQ tid (List.mem_cons_self _ _)
  have hdisj1 : ∀ x ∈ [tid], x ∉ E := by
    intro x hx hxE
    have hxq : x ∈ tid :: rest := by
      rw [List.mem_singleton.mp hx]
      exact List.mem_cons_self _ _
    exact (List.disjoint_of_nodup_append inv.nodup) hxE hxq
  have hspec := vStep_spec tid d hN f
  have hcount : ∀ y, (vStep d f tid).1 y = unres d (E ++ [tid]) y := by
    intro y
    rw [vStep_fst, inv.count y, unres_append (d := d) hdisj1 y, vcnt_eq_inCnt hN hD htid y]
    ring
  have hstepzero : ∀ x, unres d E x = 0 → unres d (E ++ [tid]) x = 0 := by
    intro x hx
    have h1 := unres_append (d := d) hdisj1 x
    have h2 := unres_nonneg d (E ++ [tid]) x
    omega
  have hVmem : ∀ y ∈ (vStep d f tid).2, unres d (E ++ [tid]) y = 0 ∧ y ∈ ids d := by
    intro y hy
    obtain ⟨⟨n, hn, hny, hdep⟩, hf1⟩ := (hspec y).1.mp hy
    have hfind : findTask d y = some n := by
      rw [← hny]
      exact findTask_self hN hn
    have hicnt : inCnt d [tid] y = 1 := by
      rw [inCnt_single_some hD htid hfind, if_pos hdep]
    have h1 := unres_append (d := d) hdisj1 y
    have h2 : unres d E y = 1 := by
      rw [← inv.count y]
      exact hf1
    refine ⟨by omega, ?_⟩
    rw [← hny]
    exact List.mem_map_of_mem _ hn
  have hVfresh : ∀ y ∈ (vStep d f tid).2, unres d E y = 1 := by
    intro y hy
    obtain ⟨_, hf1⟩ := (hspec y).1.mp hy
    rw [← inv.count y]
    exact hf1
  have hVdisj : ∀ y ∈ (vStep d f tid).2, y ∉ E ∧ y ≠ tid ∧ y ∉ rest := by
    intro y hy
    have h1 := hVfresh y hy
    refine ⟨?_, ?_, ?_⟩
    · intro hyE
      have := inv.edone y hyE
      omega
    · rintro rfl
      have := inv.qdone y (List.mem_cons_self _ _)
      omega
    · intro hyr
      have := inv.qdone y (List.mem_cons_of_mem _ hyr)
      omega
  refine ⟨?_, ?_, ?_, hcount, ?_, ?_, ?_⟩
  · -- nodup
    have hbase : ((E ++ [tid]) ++ rest).Nodup := by
      rw [← List.append_cons]
      exact inv.nodup
    have hVnd : (vStep d f tid).2.Nodup := (hspec 0).2
    rw [show (E ++ [tid]) ++ (rest ++ (vStep d f tid).2)
        = ((E ++ [tid]) ++ rest) ++ (vStep d f tid).2 from by simp]
    refine hbase.append hVnd ?_
    intro y hy1 hy2
    obtain ⟨hyE, hyt, hyr⟩ := hVdisj y hy2
    rcases List.mem_append.mp hy1 with h | h
    · rcases List.mem_append.mp h with h | h
      · exact hyE h
      · exact hyt (List.mem_singleton.mp h)
    · exact hyr h
  · -- subE
    intro x hx
    rcases List.mem_append.mp hx with h | h
    · exact inv.subE x h
    · rw [List.mem_singleton.mp h]
      exact htid
  · -- subQ
    intro x hx
    rcases List.mem_append.mp hx with h | h
    · exact inv.subQ x (List.mem_cons_of_mem _ h)
    · exact (hVmem x h).2
  · -- qdone
    intro x hx
    rcases List.mem_append.mp hx with h | h
    · exact hstepzero x (inv.qdone x (List.mem_cons_of_mem _ h))
    · exact (hVmem x h).1
  · -- edone
    intro x hx
    rcases List.mem_append.mp hx with h | h
    · exact hstepzero x (inv.edone x h)
    · rw [List.mem_singleton.mp h]
      exact hstepzero tid (inv.qdone tid (List.mem_cons_self _ _))
  · -- fresh
    intro t ht hE2 hQ2
    have h1 : t.task_id ∉ E := fun h => hE2 (List.mem_append.mpr (Or.inl h))
    have h2 : t.task_id ≠ tid := fun h => hE2 (List.mem_append.mpr (Or.inr (by simp [h])))
    have h3 : t.task_id ∉ rest := fun h => hQ2 (List.mem_append.mpr (Or.inl h))
    have h4 : t.task_id ∉ (vStep d f tid).2 := fun h => hQ2 (List.mem_append.mpr (Or.inr h))
    have hold : 0 < f t.task_id := by
      refine inv.fresh t ht h1 ?_
      intro hc
      rcases List.mem_cons.mp hc with h | h
      · exact h2 h
      · exact h3 h
    rw [inv.count] at hold
    rw [hcount]
    have hfind : findTask d t.task_id = some t := findTask_self hN ht
    have happ := unres_append (d := d) hdisj1 t.task_id
    have hic := inCnt_single_some hD htid hfind
    by_cases hm : tid ∈ t.depends_on
    · rw [if_pos hm] at hic
      by_cases hz : unres d (E ++ [tid]) t.task_id = 0
      · exfalso
        apply h4
        refine ((hspec t.task_id).1).mpr ⟨⟨t, ht, rfl, hm⟩, ?_⟩
        rw [inv.count]
        omega
      · have := unres_nonneg d (E ++ [tid]) t.task_id
        omega
    · rw [if_neg hm] at hic
      omega

/-- Helper: on an acyclic DAG with unique ids and duplicate-free
dependency lists the validate loop visits every task. -/
theorem validateAux_complete {d : DagCfg} (hN : (ids d).Nodup)
    (hD : ∀ t ∈ d, t.depends_on.Nodup) (hacy : Acyclic d) :
    ∀ (fuel : Nat) (f : Nat → Int) (Q E : List Nat), KInv d f E Q →
      d.length < fuel + E.length →
      validateAux d f Q E.length fuel = d.length := by
  intro fuel
  induction fuel with
  | zero =>
    intro f Q E inv hlen
    exfalso
    have hEnd : E.Nodup := inv.nodup.of_append_left
    have h1 := length_le_of_nodup_subset hEnd (fun x hx => inv.subE x hx)
    have h2 : (ids d).length = d.length := List.length_map _ _
    omega
  | succ fuel ih =>
    intro f Q E inv hlen
    cases Q with
    | nil =>
      have hq : validateAux d f [] E.length (fuel + 1) = E.length := rfl
      rw [hq]
      have hsub1 : E ⊆ ids d := fun x hx => inv.subE x hx
      have hsub2 : ids d ⊆ E := by
        intro x hx
        obtain ⟨t, ht, rfl⟩ := List.mem_map.mp hx
        exact stuck_complete hacy inv t ht
      have hEnd : E.Nodup := inv.nodup.of_append_left
      have h1 := length_le_of_nodup_subset hEnd hsub1
      have h2 := length_le_of_nodup_subset hN hsub2
      have h3 : (ids d).length = d.length := List.length_map _ _
      omega
    | cons tid rest =>
      have hstep := KInv.vstep hN hD inv
      have heq : validateAux d f (tid :: rest) E.length (fuel + 1)
          = validateAux d (vStep d f tid).1 (rest ++ (vStep d f tid).2)
              (E ++ [tid]).length fuel := by
        have h1 : (E ++ [tid]).length = E.length + 1 := by simp
        rw [h1]
        rfl
      rw [heq]
      refine ih _ _ _ hstep ?_
      have h1 : (E ++ [tid]).length = E.length + 1 := by simp
      omega

/-- Helper: on a well-formed acyclic DAG the cycle check passes. -/
theorem validate_true_of_acyclic {d : DagCfg} (hN : (ids d).Nodup)
    (hD : ∀ t ∈ d, t.depends_on.Nodup) (hacy : Acyclic d) :
    validate_no_cycles d = true := by
  unfold validate_no_cycles
  have h := validateAux_complete hN hD hacy (d.length + 1) (indegInit d) (initQueue d) []
    (KInv.init hN) (by simp only [List.length_nil]; omega)
  simp only [List.length_nil] at h
  rw [h]
  simp

/-- Helper: the full Kahn invariant implies the weak validate
invariant. -/
theorem VInv.ofKInv {d : DagCfg} {f : Nat → Int} {E Q : List Nat}
    (inv : KInv d f E Q) : VInv d f E Q := by
  refine ⟨inv.nodup, inv.subE, inv.subQ, fun y => le_of_eq (inv.count y).symm, ?_⟩
  intro x hx
  rcases List.mem_append.mp hx with h | h
  · exact le_of_eq (by rw [inv.count, inv.edone x h])
  · exact le_of_eq (by rw [inv.count, inv.qdone x h])

/-- Helper: popping one queue head preserves the weak validate
invariant (no assumption on duplicate dependency entries). -/
theorem VInv.popStep {d : DagCfg} (hN : (ids d).Nodup)
    {f : Nat → Int} {E : List Nat} {tid : Nat} {rest : List Nat}
    (inv : VInv d f E (tid :: rest)) :
    VInv d (vStep d f tid).1 (E ++ [tid]) (rest ++ (vStep d f tid).2) := by
  have htid : tid ∈ ids d := inv.subQ tid (List.mem_cons_self _ _)
  have hdisj1 : ∀ x ∈ [tid], x ∉ E := by
    intro x hx hxE
    have hxq : x ∈ tid :: rest := by
      rw [List.mem_singleton.mp hx]
      exact List.mem_cons_self _ _
    exact (List.disjoint_of_nodup_append inv.nodup) hxE hxq
  have hspec := vStep_spec tid d hN f
  have hvcnt_le : ∀ y,
      ((d.filter (fun n => n.task_id == y && n.depends_on.contains tid)).length : Int)
        ≤ inCnt d [tid] y := by
    intro y
    cases hf : findTask d y with
    | none =>
      have hy : y ∉ ids d := by
        rw [mem_ids_iff]
        rintro ⟨t, ht⟩
        rw [hf] at ht
        cases ht
      rw [filter_id_none _ hy]
      simp
    | some t =>
      rw [filter_id_some _ d hN hf]
      by_cases hm : tid ∈ t.depends_on
      · rw [if_pos (by simpa using hm)]
        have := inCnt_single_pos hf htid hm
        simp only [List.length_cons, List.length_nil]
        omega
      · rw [if_neg (by simpa using hm)]
        simp
  have hvcnt_node : ∀ y ∈ (vStep d f tid).2,
      (d.filter (fun n => n.task_id == y && n.depends_on.contains tid)).length = 1 := by
    intro y hy
    obtain ⟨⟨n, hn, hny, hdep⟩, hf1⟩ := (hspec y).1.mp hy
    have hfind : findTask d y = some n := by
      rw [← hny]
      exact findTask_self hN hn
    rw [filter_id_some _ d hN hfind, if_pos (by simpa using hdep)]
    rfl
  refine ⟨?_, ?_, ?_, ?_, ?_⟩
  · -- nodup
    have hbase : ((E ++ [tid]) ++ rest).Nodup := by
      rw [← List.append_cons]
      exact inv.nodup
    have hVnd : (vStep d f tid).2.Nodup := (hspec 0).2
    rw [show (E ++ [tid]) ++ (rest ++ (vStep d f tid).2)
        = ((E ++ [tid]) ++ rest) ++ (vStep d f tid).2 from by simp]
    refine hbase.append hVnd ?_
    intro y hy1 hy2
    have hf1 : f y = 1 := ((hspec y).1.mp hy2).2
    have hmem : y ∈ E ++ tid :: rest := by
      rcases List.mem_append.mp hy1 with h | h
      · rcases List.mem_append.mp h with h | h
        · exact List.mem_append.mpr (Or.inl h)
        · exact List.mem_append.mpr (Or.inr (by
            rw [List.mem_singleton.mp h]
            exact List.mem_cons_self _ _))
      · exact List.mem_append.mpr (Or.inr (List.mem_cons_of_mem _ h))
    have := inv.npos y hmem
    omega
  · -- subE
    intro x hx
    rcases List.mem_append.mp hx with h | h
    · exact inv.subE x h
    · rw [List.mem_singleton.mp h]
      exact htid
  · -- subQ
    intro x hx
    rcases List.mem_append.mp hx with h | h
    · exact inv.subQ x (List.mem_cons_of_mem _ h)
    · obtain ⟨⟨n, hn, hny, _⟩, _⟩ := (hspec x).1.mp h
      rw [← hny]
      exact List.mem_map_of_mem _ hn
  · -- ge
    intro y
    rw [vStep_fst]
    have h1 := unres_append (d := d) hdisj1 y
    have h2 := inv.ge y
    have h3 := hvcnt_le y
    omega
  · -- npos
    intro x hx
    rw [vStep_fst]
    have hlen : (0 : Int)
        ≤ ((d.filter (fun n => n.task_id == x && n.depends_on.contains tid)).length : Int) := by
      positivity
    rcases List.mem_append.mp hx with h | h
    · rcases List.mem_append.mp h with h | h
      · have := inv.npos x (List.mem_append.mpr (Or.inl h))
        omega
      · have hxt : x = tid := List.mem_singleton.mp h
        have := inv.npos x (by
          rw [hxt]
          exact List.mem_append.mpr (Or.inr (List.mem_cons_self _ _)))
        omega
    · rcases List.mem_append.mp h with h | h
      · have := inv.npos x (List.mem_append.mpr (Or.inr (List.mem_cons_of_mem _ h)))
        omega
      · have hf1 : f x = 1 := ((hspec x).1.mp h).2
        have hl := hvcnt_node x h
        rw [hl]
        omega

/-- Helper: a set of ids that is closed under following one resolved
dependency into itself never enters the emitted list or the queue of the
validate loop. -/
theorem trap_preserved {d : DagCfg} (hN : (ids d).Nodup) {T : Nat → Prop}
    {f : Nat → Int} {E : List Nat} {tid : Nat} {rest : List Nat}
    (hT : ∀ x, T x → ∃ y, T y ∧ DepRel d x y)
    (inv : VInv d f E (tid :: rest))
    (hdis : ∀ x, T x → x ∉ E ++ tid :: rest) :
    ∀ x, T x → x ∉ (E ++ [tid]) ++ (rest ++ (vStep d f tid).2) := by
  intro x hx hmem
  rcases List.mem_append.mp hmem with h | h
  · rcases List.mem_append.mp h with h | h
    · exact hdis x hx (List.mem_append.mpr (Or.inl h))
    · refine hdis x hx (List.mem_append.mpr (Or.inr ?_))
      rw [List.mem_singleton.mp h]
      exact List.mem_cons_self _ _
  · rcases List.mem_append.mp h with h | h
    · exact hdis x hx (List.mem_append.mpr (Or.inr (List.mem_cons_of_mem _ h)))
    · -- x was just enqueued, impossible inside the trap
      have hspec := vStep_spec tid d hN f
      obtain ⟨⟨n, hn, hny, hdep⟩, hf1⟩ := (hspec x).1.mp h
      obtain ⟨y, hTy, hdrel⟩ := hT x hx
      obtain ⟨t, ht, htx, hyb, hyid⟩ := hdrel
      have htn : t = n := by
        have e1 := findTask_self hN ht
        have e2 := findTask_self hN hn
        rw [htx] at e1
        rw [hny] at e2
        exact Option.some.inj (e1.symm.trans e2)
      have hyb2 : y ∈ n.depends_on := htn ▸ hyb
      have hy_ne : y ≠ tid := by
        rintro rfl
        exact hdis y hTy (List.mem_append.mpr (Or.inr (List.mem_cons_self _ _)))
      have hyE : y ∉ E := fun hc => hdis y hTy (List.mem_append.mpr (Or.inl hc))
      have htidE : tid ∉ E := by
        intro hc
        exact (List.disjoint_of_nodup_append inv.nodup) hc (List.mem_cons_self _ _)
      have htid : tid ∈ ids d := inv.subQ tid (List.mem_cons_self _ _)
      have hdeps : depsOfId d x = resolvedDeps d n := by
        unfold depsOfId
        rw [show findTask d x = some n from by
          rw [← hny]
          exact findTask_self hN hn]
      have hymem : y ∈ (depsOfId d x).filter (fun b => !decide (b ∈ E)) := by
        rw [hdeps]
        refine List.mem_filter.mpr ⟨?_, by simpa using hyE⟩
        unfold resolvedDeps
        exact List.mem_filter.mpr ⟨hyb2, by simpa using hyid⟩
      have htmem : tid ∈ (depsOfId d x).filter (fun b => !decide (b ∈ E)) := by
        rw [hdeps]
        refine List.mem_filter.mpr ⟨?_, by simpa using htidE⟩
        unfold resolvedDeps
        exact List.mem_filter.mpr ⟨hdep, by simpa using htid⟩
      have h2 := two_le_length_of_mem hymem htmem hy_ne
      have h3 := inv.ge x
      unfold unres at h3
      omega

/-- Helper: the visited count of the validate loop over a state avoiding
a dependency-closed trap set is the length of a duplicate-free id list
avoiding the trap set. -/
theorem validateAux_sound {d : DagCfg} (hN : (ids d).Nodup) {T : Nat → Prop}
    (hT : ∀ x, T x → ∃ y, T y ∧ DepRel d x y) :
    ∀ (fuel : Nat) (f : Nat → Int) (Q E : List Nat), VInv d f E Q →
      (∀ x, T x → x ∉ E ++ Q) →
      ∃ F : List Nat, validateAux d f Q E.length fuel = F.length
        ∧ F.Nodup ∧ (∀ x ∈ F, x ∈ ids d) ∧ (∀ x, T x → x ∉ F) := by
  intro fuel
  induction fuel with
  | zero =>
    intro f Q E inv hdis
    exact ⟨E, rfl, inv.nodup.of_append_left, inv.subE,
      fun x hx hc => hdis x hx (List.mem_append.mpr (Or.inl hc))⟩
  | succ fuel ih =>
    intro f Q E inv hdis
    cases Q with
    | nil =>
      exact ⟨E, rfl, inv.nodup.of_append_left, inv.subE,
        fun x hx hc => hdis x hx (List.mem_append.mpr (Or.inl hc))⟩
    | cons tid rest =>
      have hstep := VInv.popStep hN inv
      have htrap := trap_preserved hN hT inv hdis
      have heq : validateAux d f (tid :: rest) E.length (fuel + 1)
          = validateAux d (vStep d f tid).1 (rest ++ (vStep d f tid).2)
              (E ++ [tid]).length fuel := by
        have h1 : (E ++ [tid]).length = E.length + 1 := by simp
        rw [h1]
        rfl
      obtain ⟨F, hF1, hF2, hF3, hF4⟩ := ih _ _ _ hstep htrap
      exact ⟨F, heq.trans hF1, hF2, hF3, hF4⟩

/-- Helper: a dependency cycle makes the cycle check fail. -/
theorem validate_false_of_cycle {d : DagCfg} (hN : (ids d).Nodup)
    {a : Nat} (hcyc : Relation.TransGen (DepRel d) a a) :
    validate_no_cycles d = false := by
  have hT : ∀ x, Relation.TransGen (DepRel d) x x →
      ∃ y, Relation.TransGen (DepRel d) y y ∧ DepRel d x y := by
    intro x hx
    obtain ⟨c, hxc, hcx⟩ := (Relation.TransGen.head'_iff).mp hx
    exact ⟨c, Relation.TransGen.tail' hcx hxc, hxc⟩
  have ha_id : a ∈ ids d := by
    obtain ⟨c, hac, _⟩ := (Relation.TransGen.head'_iff).mp hcyc
    exact DepRel.mem_ids_left hac
  have hdis0 : ∀ x, Relation.TransGen (DepRel d) x x → x ∉ ([] : List Nat) ++ initQueue d := by
    intro x hx hc
    simp only [List.nil_append] at hc
    have inv0 := KInv.init hN
    have hz := inv0.qdone x hc
    obtain ⟨y, _, hdep⟩ := hT x hx
    have hy : y ∈ depsOfId d x := DepRel.mem_depsOfId hN hdep
    have := unres_eq_zero_iff.mp hz y hy
    simp at this
  obtain ⟨F, hF1, hF2, hF3, hF4⟩ := validateAux_sound hN hT (d.length + 1)
    (indegInit d) (initQueue d) [] (VInv.ofKInv (KInv.init hN)) hdis0
  have haF : a ∉ F := hF4 a hcyc
  have hcons : (a :: F).Nodup := List.nodup_cons.mpr ⟨haF, hF2⟩
  have hsub : (a :: F) ⊆ ids d := by
    intro x hx
    rcases List.mem_cons.mp hx with rfl | h
    · exact ha_id
    · exact hF3 x h
  have hlen := length_le_of_nodup_subset hcons hsub
  have h3 : (ids d).length = d.length := List.length_map _ _
  simp only [List.length_cons] at hlen
  unfold validate_no_cycles
  simp only [List.length_nil] at hF1
  rw [hF1]
  rw [beq_eq_false_iff_ne]
  omega

/-- Helper: an index hit is a member. -/
theorem mem_of_getElem_some {l : List Nat} {i : Nat} {a : Nat}
    (h : l[i]? = some a) : a ∈ l := by
  obtain ⟨hlt, he⟩ := List.getElem?_eq_some.mp h
  exact he ▸ List.getElem_mem hlt

/-- Helper: members of well-formed layers are task ids. -/
theorem goodLayers_flatten_subset {d : DagCfg} :
    ∀ (Ls : List (List Nat)) (E : List Nat), GoodLayers d E Ls →
      ∀ x ∈ Ls.flatten, x ∈ ids d := by
  intro Ls
  induction Ls with
  | nil =>
    intro E _ x hx
    simp at hx
  | cons q rest ih =>
    intro E hg x hx
    have hg2 : (∀ z ∈ q, z ∈ ids d ∧ ∀ b ∈ depsOfId d z, b ∈ E)
        ∧ GoodLayers d (E ++ q) rest := hg
    rw [List.flatten_cons] at hx
    rcases List.mem_append.mp hx with h | h
    · exact (hg2.1 x h).1
    · exact ih (E ++ q) hg2.2 x h

/-- Helper: in the flattening of well-formed layers every task sits
strictly after each of its resolved dependencies. -/
theorem goodLayers_order {d : DagCfg} :
    ∀ (Ls : List (List Nat)) (E : List Nat), GoodLayers d E Ls →
      (E ++ Ls.flatten).Nodup →
      ∀ x b, b ∈ depsOfId d x → b ∉ E →
      ∀ i j : Nat, Ls.flatten[i]? = some x → Ls.flatten[j]? = some b → j < i := by
  intro Ls
  induction Ls with
  | nil =>
    intro E _ _ x b _ _ i j hi _
    simp at hi
  | cons q rest ih =>
    intro E hg hnd x b hbdep hbE i j hi hj
    have hg2 : (∀ z ∈ q, z ∈ ids d ∧ ∀ b2 ∈ depsOfId d z, b2 ∈ E)
        ∧ GoodLayers d (E ++ q) rest := hg
    rw [List.flatten_cons] at hi hj hnd
    have hnd2 : ((E ++ q) ++ rest.flatten).Nodup := by
      rw [List.append_assoc]
      exact hnd
    by_cases hiq : i < q.length
    · exfalso
      rw [List.getElem?_append_left hiq] at hi
      have hxq : x ∈ q := mem_of_getElem_some hi
      exact hbE ((hg2.1 x hxq).2 b hbdep)
    · push_neg at hiq
      rw [List.getElem?_append_right hiq] at hi
      by_cases hjq : j < q.length
      · omega
      · push_neg at hjq
        rw [List.getElem?_append_right hjq] at hj
        have hbF : b ∈ rest.flatten := mem_of_getElem_some hj
        have hbq : b ∉ q := by
          intro hc
          have hnd3 : (q ++ rest.flatten).Nodup := hnd.of_append_right
          exact (List.disjoint_of_nodup_append hnd3) hc hbF
        have hbEq : b ∉ E ++ q := by
          intro hc
          rcases List.mem_append.mp hc with h | h
          · exact hbE h
          · exact hbq h
        have := ih (E ++ q) hg2.2 hnd2 x b hbdep hbEq (i - q.length) (j - q.length) hi hj
        omega

/-- Helper: on an acyclic DAG with unique ids the layers of
topological_sort contain every task exactly once, in dependency-closed
order. -/
theorem topological_sort_spec {d : DagCfg} (hN : (ids d).Nodup) (hacy : Acyclic d) :
    (∀ t ∈ d, t.task_id ∈ (topological_sort d).flatten)
    ∧ (topological_sort d).flatten.Nodup
    ∧ GoodLayers d [] (topological_sort d)
    ∧ (∀ x ∈ (topological_sort d).flatten, x ∈ ids d) := by
  have inv0 := KInv.init hN
  have hc := kahnAux_complete hN hacy (d.length + 1) (indegInit d) (initQueue d) [] inv0
    (by simp only [List.length_nil]; omega)
  have hn := kahnAux_nodup hN (d.length + 1) (indegInit d) (initQueue d) [] inv0
  have hg : GoodLayers d [] (topological_sort d) :=
    kahnAux_good hN (d.length + 1) (indegInit d) (initQueue d) [] inv0
  refine ⟨?_, ?_, hg, ?_⟩
  · intro t ht
    have h1 := hc t ht
    unfold topological_sort
    simpa using h1
  · unfold topological_sort
    simpa using hn
  · intro x hx
    exact goodLayers_flatten_subset (topological_sort d) [] hg x hx

/-- Helper: the skip decision only reads the statuses of dependency
entries that are task ids. -/
theorem shouldSkip_congr {d : DagCfg} {st st2 : DagState} {t : TaskSpec}
    (h : ∀ b ∈ t.depends_on, b ∈ ids d → st2.status b = st.status b) :
    shouldSkip d st2 t = shouldSkip d st t := by
  unfold shouldSkip
  suffices hh : ∀ l : List Nat, (∀ b ∈ l, b ∈ ids d → st2.status b = st.status b) →
      (l.any fun depId =>
        match findTask d depId with
        | some _ => st2.status depId == TStatus.failed || st2.status depId == TStatus.skipped
        | none => false)
      = (l.any fun depId =>
        match findTask d depId with
        | some _ => st.status depId == TStatus.failed || st.status depId == TStatus.skipped
        | none => false) by
    exact hh _ h
  intro l hl
  induction l with
  | nil => rfl
  | cons c l ih =>
    simp only [List.any_cons]
    rw [ih (fun b hb => hl b (List.mem_cons_of_mem _ hb))]
    congr 1
    cases hf : findTask d c with
    | none => rfl
    | some u =>
      have hc : st2.status c = st.status c :=
        hl c (List.mem_cons_self _ _) (mem_ids_iff.mpr ⟨u, hf⟩)
      rw [hc]

/-- Helper: the skip decision of a task id only reads the statuses of
its resolved dependencies. -/
theorem skipB_congr {d : DagCfg} {st st2 : DagState} {tid : Nat}
    (h : ∀ b ∈ depsOfId d tid, st2.status b = st.status b) :
    skipB d st2 tid = skipB d st tid := by
  unfold skipB
  cases hf : findTask d tid with
  | none => rfl
  | some t =>
    apply shouldSkip_congr
    intro b hb hbid
    apply h
    unfold depsOfId
    rw [hf]
    unfold resolvedDeps
    exact List.mem_filter.mpr ⟨hb, by simpa using hbid⟩

/-- Helper: the mark pass leaves tasks outside the layer untouched. -/
theorem markPhase_untouched {d : DagCfg} :
    ∀ (layer : List Nat) (st : DagState) (y : Nat), y ∉ layer →
      (markPhase d st layer).1.status y = st.status y
      ∧ (markPhase d st layer).1.msg y = st.msg y := by
  intro layer
  induction layer with
  | nil =>
    intro st y _
    exact ⟨rfl, rfl⟩
  | cons tid rest ih =>
    intro st y hy
    have hyt : y ≠ tid := fun h => hy (h ▸ List.mem_cons_self _ _)
    have hyr : y ∉ rest := fun h => hy (List.mem_cons_of_mem _ h)
    cases hf : findTask d tid with
    | none =>
      have he : markPhase d st (tid :: rest) = markPhase d st rest := by
        conv_lhs => unfold markPhase
        rw [hf]
      rw [he]
      exact ih st y hyr
    | some node =>
      by_cases hs : shouldSkip d st node = true
      · have he : markPhase d st (tid :: rest) = markPhase d (setSkipped st tid) rest := by
          conv_lhs => unfold markPhase
          rw [hf]
          simp [hs]
        rw [he]
        have h2 := ih (setSkipped st tid) y hyr
        rw [h2.1, h2.2]
        exact ⟨by simp [setSkipped, hyt], by simp [setSkipped, hyt]⟩
      · have he : (markPhase d st (tid :: rest)).1
            = (markPhase d (setStatus st tid TStatus.waiting) rest).1 := by
          conv_lhs => unfold markPhase
          rw [hf]
          simp [hs]
        rw [he]
        have h2 := ih (setStatus st tid TStatus.waiting) y hyr
        rw [h2.1, h2.2]
        exact ⟨by simp [setStatus, hyt], rfl⟩

/-- Helper: the runnable tasks of the mark pass come from the layer. -/
theorem markPhase_runnable_subset {d : DagCfg} :
    ∀ (layer : List Nat) (st : DagState), (markPhase d st layer).2 ⊆ layer := by
  intro layer
  induction layer with
  | nil =>
    intro st x hx
    simp [markPhase] at hx
  | cons tid rest ih =>
    intro st x hx
    cases hf : findTask d tid with
    | none =>
      have he : markPhase d st (tid :: rest) = markPhase d st rest := by
        conv_lhs => unfold markPhase
        rw [hf]
      rw [he] at hx
      exact List.mem_cons_of_mem _ (ih st hx)
    | some node =>
      by_cases hs : shouldSkip d st node = true
      · have he : markPhase d st (tid :: rest) = markPhase d (setSkipped st tid) rest := by
          conv_lhs => unfold markPhase
          rw [hf]
          simp [hs]
        rw [he] at hx
        exact List.mem_cons_of_mem _ (ih _ hx)
      · have he : (markPhase d st (tid :: rest)).2
            = tid :: (markPhase d (setStatus st tid TStatus.waiting) rest).2 := by
          conv_lhs => unfold markPhase
          rw [hf]
          simp [hs]
        rw [he] at hx
        rcases List.mem_cons.mp hx with rfl | hx2
        · exact List.mem_cons_self _ _
        · exact List.mem_cons_of_mem _ (ih _ hx2)

/-- Helper: the mark pass decides each layer member by its skip flag at
layer entry (earlier members of the layer are no dependencies of it). -/
theorem markPhase_mem {d : DagCfg} :
    ∀ (layer : List Nat) (st : DagState) (tid : Nat), layer.Nodup → tid ∈ layer →
      (∀ b ∈ depsOfId d tid, b ∉ layer) → tid ∈ ids d →
      (skipB d st tid = true →
        (markPhase d st layer).1.status tid = TStatus.skipped
        ∧ (markPhase d st layer).1.msg tid = some "Dependency failed"
        ∧ tid ∉ (markPhase d st layer).2)
      ∧ (skipB d st tid = false →
        (markPhase d st layer).1.status tid = TStatus.waiting
        ∧ tid ∈ (markPhase d st layer).2) := by
  intro layer
  induction layer with
  | nil =>
    intro st tid _ hmem
    cases hmem
  | cons h0 rest ih =>
    intro st tid hnd hmem hdeps htid
    have hndr : rest.Nodup := (List.nodup_cons.mp hnd).2
    have hh0r : h0 ∉ rest := (List.nodup_cons.mp hnd).1
    by_cases hht : h0 = tid
    · subst hht
      have htr : h0 ∉ rest := hh0r
      obtain ⟨t, hft⟩ := mem_ids_iff.mp htid
      have hskipB : skipB d st h0 = shouldSkip d st t := by
        unfold skipB
        rw [hft]
      by_cases hs : shouldSkip d st t = true
      · have he : markPhase d st (h0 :: rest) = markPhase d (setSkipped st h0) rest := by
          conv_lhs => unfold markPhase
          rw [hft]
          simp [hs]
        constructor
        · intro _
          rw [he]
          have hu := markPhase_untouched (d := d) rest (setSkipped st h0) h0 htr
          refine ⟨?_, ?_, ?_⟩
          · rw [hu.1]
            simp [setSkipped]
          · rw [hu.2]
            simp [setSkipped]
          · intro hc
            exact htr (markPhase_runnable_subset rest _ hc)
        · intro hfalse
          rw [hskipB, hs] at hfalse
          cases hfalse
      · have hsf : shouldSkip d st t = false := by
          revert hs
          cases shouldSkip d st t <;> simp
        have he1 : (markPhase d st (h0 :: rest)).1
            = (markPhase d (setStatus st h0 TStatus.waiting) rest).1 := by
          conv_lhs => unfold markPhase
          rw [hft]
          simp [hsf]
        have he2 : (markPhase d st (h0 :: rest)).2
            = h0 :: (markPhase d (setStatus st h0 TStatus.waiting) rest).2 := by
          conv_lhs => unfold markPhase
          rw [hft]
          simp [hsf]
        constructor
        · intro htrue
          rw [hskipB, hsf] at htrue
          cases htrue
        · intro _
          have hu := markPhase_untouched (d := d) rest (setStatus st h0 TStatus.waiting) h0 htr
          refine ⟨?_, ?_⟩
          · rw [he1, hu.1]
            simp [setStatus]
          · rw [he2]
            exact List.mem_cons_self _ _
    · have htr : tid ∈ rest := by
        rcases List.mem_cons.mp hmem with h1 | h1
        · exact absurd h1.symm hht
        · exact h1
      have hdeps2 : ∀ b ∈ depsOfId d tid, b ∉ rest :=
        fun b hb hc => hdeps b hb (List.mem_cons_of_mem _ hc)
      have hh0dep : h0 ∉ depsOfId d tid :=
        fun hc => hdeps h0 hc (List.mem_cons_self _ _)
      cases hf : findTask d h0 with
      | none =>
        have he : markPhase d st (h0 :: rest) = markPhase d st rest := by
          conv_lhs => unfold markPhase
          rw [hf]
        rw [he]
        exact ih st tid hndr htr hdeps2 htid
      | some node =>
        by_cases hs : shouldSkip d st node = true
        · have he : markPhase d st (h0 :: rest) = markPhase d (setSkipped st h0) rest := by
            conv_lhs => unfold markPhase
            rw [hf]
            simp [hs]
          have hsk : skipB d (setSkipped st h0) tid = skipB d st tid := by
            apply skipB_congr
            intro b hb
            have hbh : b ≠ h0 := fun hc => hh0dep (hc ▸ hb)
            simp [setSkipped, hbh]
          have h2 := ih (setSkipped st h0) tid hndr htr hdeps2 htid
          rw [he]
          constructor
          · intro htrue
            exact h2.1 (by rw [hsk]; exact htrue)
          · intro hfalse
            exact h2.2 (by rw [hsk]; exact hfalse)
        · have he : markPhase d st (h0 :: rest)
              = ((markPhase d (setStatus st h0 TStatus.waiting) rest).1,
                 h0 :: (markPhase d (setStatus st h0 TStatus.waiting) rest).2) := by
            conv_lhs => unfold markPhase
            rw [hf]
            simp [hs]
          have hsk : skipB d (setStatus st h0 TStatus.waiting) tid = skipB d st tid := by
            apply skipB_congr
            intro b hb
            have hbh : b ≠ h0 := fun hc => hh0dep (hc ▸ hb)
            simp [setStatus, hbh]
          have h2 := ih (setStatus st h0 TStatus.waiting) tid hndr htr hdeps2 htid
          rw [he]
          constructor
          · intro htrue
            have h3 := h2.1 (by rw [hsk]; exact htrue)
            refine ⟨h3.1, h3.2.1, ?_⟩
            intro hc
            rcases List.mem_cons.mp hc with h4 | h4
            · exact hht h4.symm
            · exact h3.2.2 h4
          · intro hfalse
            have h3 := h2.2 (by rw [hsk]; exact hfalse)
            exact ⟨h3.1, List.mem_cons_of_mem _ h3.2⟩

/-- Helper: the worker pass never touches error messages. -/
theorem runPhase_msg (exec : Nat → Bool) :
    ∀ (l : List Nat) (st : DagState), (runPhase exec st l).msg = st.msg := by
  intro l
  induction l with
  | nil =>
    intro st
    rfl
  | cons tid rest ih =>
    intro st
    show (runPhase exec (setStatus st tid _) rest).msg = st.msg
    rw [ih]
    rfl

/-- Helper: the worker pass leaves tasks outside the runnable list
untouched. -/
theorem runPhase_untouched (exec : Nat → Bool) :
    ∀ (l : List Nat) (st : DagState) (y : Nat), y ∉ l →
      (runPhase exec st l).status y = st.status y := by
  intro l
  induction l with
  | nil =>
    intro st y _
    rfl
  | cons tid rest ih =>
    intro st y hy
    have hyt : y ≠ tid := fun h => hy (h ▸ List.mem_cons_self _ _)
    have hyr : y ∉ rest := fun h => hy (List.mem_cons_of_mem _ h)
    show (runPhase exec (setStatus st tid _) rest).status y = st.status y
    rw [ih _ y hyr]
    simp [setStatus, hyt]

/-- Helper: the worker pass resolves each runnable task by its executor
result. -/
theorem runPhase_mem (exec : Nat → Bool) :
    ∀ (l : List Nat) (st : DagState) (tid : Nat), l.Nodup → tid ∈ l →
      (runPhase exec st l).status tid
        = (if exec tid then TStatus.success else TStatus.failed) := by
  intro l
  induction l with
  | nil =>
    intro st tid _ hmem
    cases hmem
  | cons h0 rest ih =>
    intro st tid hnd hmem
    have hndr : rest.Nodup := (List.nodup_cons.mp hnd).2
    have hh0r : h0 ∉ rest := (List.nodup_cons.mp hnd).1
    by_cases hht : h0 = tid
    · subst hht
      show (runPhase exec (setStatus st h0 _) rest).status h0 = _
      rw [runPhase_untouched exec rest _ h0 hh0r]
      simp [setStatus]
    · have htr : tid ∈ rest := by
        rcases List.mem_cons.mp hmem with h1 | h1
        · exact absurd h1.symm hht
        · exact h1
      show (runPhase exec (setStatus st h0 _) rest).status tid = _
      exact ih _ tid hndr htr

/-- Helper: processing one well-formed layer preserves the execution
invariant. -/
theorem SInv.layerStep {d : DagCfg} (exec : Nat → Bool) {E : List Nat}
    {st : DagState} {q : List Nat}
    (inv : SInv d E st)
    (hgood : ∀ x ∈ q, x ∈ ids d ∧ ∀ b ∈ depsOfId d x, b ∈ E)
    (hnd : (E ++ q).Nodup) :
    SInv d (E ++ q) (runPhase exec (markPhase d st q).1 (markPhase d st q).2) := by
  have hqnd : q.Nodup := hnd.of_append_right
  have hdisj : ∀ x ∈ q, x ∉ E := fun x hq hE => (List.disjoint_of_nodup_append hnd) hE hq
  have hpres : ∀ y, y ∉ q →
      (runPhase exec (markPhase d st q).1 (markPhase d st q).2).status y = st.status y
      ∧ (runPhase exec (markPhase d st q).1 (markPhase d st q).2).msg y = st.msg y := by
    intro y hy
    have h1 := markPhase_untouched (d := d) q st y hy
    have h2 := runPhase_untouched exec (markPhase d st q).2 (markPhase d st q).1 y
      (fun hc => hy (markPhase_runnable_subset q st hc))
    have h3 := runPhase_msg exec (markPhase d st q).2 (markPhase d st q).1
    exact ⟨h2.trans h1.1, by rw [h3]; exact h1.2⟩
  refine ⟨?_, ?_⟩
  · intro x hx b hb
    rcases List.mem_append.mp hx with h | h
    · exact List.mem_append.mpr (Or.inl (inv.closed x h b hb))
    · exact List.mem_append.mpr (Or.inl ((hgood x h).2 b hb))
  · intro x hx b hb hfb
    rcases List.mem_append.mp hx with h | h
    · have hbE : b ∈ E := inv.closed x h b hb
      have hbq : b ∉ q := fun hc => hdisj b hc hbE
      have hxq : x ∉ q := fun hc => hdisj x hc h
      have hpx := hpres x hxq
      have hpb := hpres b hbq
      rw [hpx.1, hpx.2]
      rw [hpb.1] at hfb
      exact inv.casc x h b hb hfb
    · have hbE : b ∈ E := (hgood x h).2 b hb
      have hbq : b ∉ q := fun hc => hdisj b hc hbE
      have hpb := hpres b hbq
      rw [hpb.1] at hfb
      obtain ⟨t, hft⟩ := mem_ids_iff.mp (hgood x h).1
      have hbdep : b ∈ t.depends_on := by
        have h2 := hb
        unfold depsOfId at h2
        rw [hft] at h2
        unfold resolvedDeps at h2
        exact (List.mem_filter.mp h2).1
      have hbid : b ∈ ids d := by
        have h2 := hb
        unfold depsOfId at h2
        rw [hft] at h2
        unfold resolvedDeps at h2
        simpa using (List.mem_filter.mp h2).2
      have hsk : skipB d st x = true := by
        unfold skipB
        rw [hft]
        unfold shouldSkip
        rw [List.any_eq_true]
        refine ⟨b, hbdep, ?_⟩
        obtain ⟨u, hfu⟩ := mem_ids_iff.mp hbid
        rw [hfu]
        rcases hfb with h2 | h2 <;> simp [h2]
      have hdeps2 : ∀ c ∈ depsOfId d x, c ∉ q :=
        fun c hc hcq => hdisj c hcq ((hgood x h).2 c hc)
      have hm := (markPhase_mem (d := d) q st x hqnd h hdeps2 (hgood x h).1).1 hsk
      have hr1 : (runPhase exec (markPhase d st q).1 (markPhase d st q).2).status x
          = (markPhase d st q).1.status x :=
        runPhase_untouched exec _ _ x hm.2.2
      have hr2 := runPhase_msg exec (markPhase d st q).2 (markPhase d st q).1
      refine ⟨?_, ?_⟩
      · rw [hr1]
        exact hm.1
      · rw [hr2]
        exact hm.2.1

/-- Helper: the layer loop of execute_dag establishes the execution
invariant over the concatenation of the processed layers. -/
theorem runLayers_inv {d : DagCfg} (exec : Nat → Bool) :
    ∀ (Ls : List (List Nat)) (E : List Nat) (st : DagState),
      SInv d E st → GoodLayers d E Ls → (E ++ Ls.flatten).Nodup →
      SInv d (E ++ Ls.flatten) (runLayers d exec st Ls).1 := by
  intro Ls
  induction Ls with
  | nil =>
    intro E st inv _ _
    simp only [List.flatten_nil, List.append_nil]
    exact inv
  | cons q rest ih =>
    intro E st inv hg hnd
    have hg2 : (∀ x ∈ q, x ∈ ids d ∧ ∀ b ∈ depsOfId d x, b ∈ E)
        ∧ GoodLayers d (E ++ q) rest := hg
    rw [List.flatten_cons] at hnd ⊢
    have hnd1 : (E ++ q).Nodup := by
      have h2 : ((E ++ q) ++ rest.flatten).Nodup := by
        rw [List.append_assoc]
        exact hnd
      exact h2.of_append_left
    have hstep := SInv.layerStep exec inv hg2.1 hnd1
    have hnd2 : ((E ++ q) ++ rest.flatten).Nodup := by
      rw [List.append_assoc]
      exact hnd
    have h3 := ih (E ++ q) _ hstep hg2.2 hnd2
    rw [List.append_assoc] at h3
    have he : (runLayers d exec st (q :: rest)).1
        = (runLayers d exec (runPhase exec (markPhase d st q).1 (markPhase d st q).2) rest).1 :=
      rfl
    rw [he]
    exact h3

end Dag

/-! ## Theorems: claim C5 -/

/-- C5: for every task set with unique ids whose resolved dependency
graph contains a cycle, the Kahn count check fails, build_dag raises the
cycle error, execute_dag surfaces that error to the caller (build_dag
runs before the try block), and no task is executed. -/
theorem c5_cycle_detection (d : Dag.DagCfg) (exec : Nat → Bool) (a : Nat)
    (hN : (Dag.ids d).Nodup) (hcyc : Relation.TransGen (Dag.DepRel d) a a) :
    Dag.validate_no_cycles d = false
    ∧ Dag.build_dag d = Except.error "cycle"
    ∧ Dag.execute_dag d exec = Except.error "cycle"
    ∧ Dag.executedTasks (Dag.execute_dag d exec) = [] := by
  have hv := Dag.validate_false_of_cycle hN hcyc
  have hb : Dag.build_dag d = Except.error "cycle" := by
    unfold Dag.build_dag
    rw [hv]
    simp
  have he : Dag.execute_dag d exec = Except.error "cycle" := by
    unfold Dag.execute_dag
    rw [hb]
  refine ⟨hv, hb, he, ?_⟩
  rw [he]
  rfl

/-- C5 witness: the two-task cycle 0 ↔ 1 is rejected everywhere and
executes nothing. -/
theorem c5_witness :
    (Dag.ids [⟨0, Dag.TType.sync, [1]⟩, ⟨1, Dag.TType.sync, [0]⟩]).Nodup
    ∧ Relation.TransGen
        (Dag.DepRel [⟨0, Dag.TType.sync, [1]⟩, ⟨1, Dag.TType.sync, [0]⟩]) 0 0
    ∧ Dag.validate_no_cycles [⟨0, Dag.TType.sync, [1]⟩, ⟨1, Dag.TType.sync, [0]⟩] = false
    ∧ Dag.build_dag [⟨0, Dag.TType.sync, [1]⟩, ⟨1, Dag.TType.sync, [0]⟩]
        = Except.error "cycle"
    ∧ Dag.execute_dag [⟨0, Dag.TType.sync, [1]⟩, ⟨1, Dag.TType.sync, [0]⟩]
        (fun _ => true) = Except.error "cycle"
    ∧ Dag.executedTasks (Dag.execute_dag [⟨0, Dag.TType.sync, [1]⟩, ⟨1, Dag.TType.sync, [0]⟩]
        (fun _ => true)) = [] := by
  have hcyc : Relation.TransGen
      (Dag.DepRel [⟨0, Dag.TType.sync, [1]⟩, ⟨1, Dag.TType.sync, [0]⟩]) 0 0 :=
    Relation.TransGen.head
      ⟨⟨0, Dag.TType.sync, [1]⟩, by simp, rfl, by simp, by simp [Dag.ids]⟩
      (Relation.TransGen.single
        ⟨⟨1, Dag.TType.sync, [0]⟩, by simp, rfl, by simp, by simp [Dag.ids]⟩)
  have h := c5_cycle_detection [⟨0, Dag.TType.sync, [1]⟩, ⟨1, Dag.TType.sync, [0]⟩]
    (fun _ => true) 0 (by decide) hcyc
  exact ⟨by decide, hcyc, h.1, h.2.1, h.2.2.1, h.2.2.2⟩

/-! ## Theorems: claim C4 -/

/-- C4 (amended): for every acyclic task set with unique ids and
duplicate-free dependency lists whose dependencies all resolve in the
DAG, build_dag succeeds and the concatenated layers of topological_sort
are a topological order: only task ids appear, each exactly once, and
every task sits strictly after each of its dependencies. -/
theorem c4_build_and_topo (d : Dag.DagCfg) (hN : (Dag.ids d).Nodup)
    (hD : ∀ t ∈ d, t.depends_on.Nodup) (hacy : Dag.Acyclic d)
    (hres : ∀ t ∈ d, ∀ b ∈ t.depends_on, b ∈ Dag.ids d) :
    Dag.build_dag d = Except.ok d
    ∧ (∀ x ∈ (Dag.topological_sort d).flatten, x ∈ Dag.ids d)
    ∧ (∀ t ∈ d, (Dag.topological_sort d).flatten.count t.task_id = 1)
    ∧ (∀ t ∈ d, ∀ b ∈ t.depends_on, ∀ i j : Nat,
        ((Dag.topological_sort d).flatten)[i]? = some t.task_id →
        ((Dag.topological_sort d).flatten)[j]? = some b → j < i) := by
  obtain ⟨hcomp, hnd, hgood, hsub⟩ := Dag.topological_sort_spec hN hacy
  refine ⟨?_, hsub, ?_, ?_⟩
  · unfold Dag.build_dag
    rw [Dag.validate_true_of_acyclic hN hD hacy]
    have hall : d.all (fun t => t.depends_on.all (fun b => (Dag.ids d).contains b)) = true := by
      rw [List.all_eq_true]
      intro t ht
      rw [List.all_eq_true]
      intro b hb
      simpa using hres t ht b hb
    rw [hall]
    simp
  · intro t ht
    exact List.count_eq_one_of_mem hnd (hcomp t ht)
  · intro t ht b hb i j hi hj
    have hbd : b ∈ Dag.depsOfId d t.task_id := by
      rw [Dag.depsOfId_of_mem hN ht]
      unfold Dag.resolvedDeps
      exact List.mem_filter.mpr ⟨hb, by simpa using hres t ht b hb⟩
    exact Dag.goodLayers_order (Dag.topological_sort d) [] hgood (by simpa using hnd)
      t.task_id b hbd (by simp) i j hi hj

/-- C4 counterexample: a duplicate dependency entry makes build_dag
reject an acyclic fully-resolved task set as cyclic (the validate loop
decrements once per node by membership while the in-degree dict counts
occurrences), although topological_sort itself layers it correctly. -/
theorem c4_counterexample :
    Dag.Acyclic [⟨0, Dag.TType.sync, []⟩, ⟨1, Dag.TType.sync, [0, 0]⟩]
    ∧ (∀ t ∈ ([⟨0, Dag.TType.sync, []⟩, ⟨1, Dag.TType.sync, [0, 0]⟩] : Dag.DagCfg),
        ∀ b ∈ t.depends_on, b ∈ Dag.ids [⟨0, Dag.TType.sync, []⟩, ⟨1, Dag.TType.sync, [0, 0]⟩])
    ∧ Dag.validate_no_cycles [⟨0, Dag.TType.sync, []⟩, ⟨1, Dag.TType.sync, [0, 0]⟩] = false
    ∧ Dag.build_dag [⟨0, Dag.TType.sync, []⟩, ⟨1, Dag.TType.sync, [0, 0]⟩]
        = Except.error "cycle"
    ∧ Dag.topological_sort [⟨0, Dag.TType.sync, []⟩, ⟨1, Dag.TType.sync, [0, 0]⟩]
        = [[0], [1]] := by
  refine ⟨?_, by decide, by decide, by rfl, by decide⟩
  show WellFounded (fun b a =>
    Dag.DepRel [⟨0, Dag.TType.sync, []⟩, ⟨1, Dag.TType.sync, [0, 0]⟩] a b)
  have acc0 : Acc (fun b a =>
      Dag.DepRel [⟨0, Dag.TType.sync, []⟩, ⟨1, Dag.TType.sync, [0, 0]⟩] a b) 0 := by
    constructor
    intro y hy
    obtain ⟨t, ht, htid, hyb, _⟩ := hy
    rcases List.mem_cons.mp ht with rfl | ht2
    · simp at hyb
    · rcases List.mem_cons.mp ht2 with rfl | ht3
      · exact absurd htid (by decide)
      · cases ht3
  constructor
  intro x
  constructor
  intro y hy
  obtain ⟨t, ht, htid, hyb, _⟩ := hy
  rcases List.mem_cons.mp ht with rfl | ht2
  · simp at hyb
  · rcases List.mem_cons.mp ht2 with rfl | ht3
    · have hy0 : y = 0 := by simpa using hyb
      subst hy0
      exact acc0
    · cases ht3

/-- C4 witness: the two-task chain 1 → 0 builds and sorts into a
strict dependency order. -/
theorem c4_witness :
    (Dag.ids [⟨0, Dag.TType.sync, []⟩, ⟨1, Dag.TType.sync, [0]⟩]).Nodup
    ∧ (∀ t ∈ ([⟨0, Dag.TType.sync, []⟩, ⟨1, Dag.TType.sync, [0]⟩] : Dag.DagCfg),
        t.depends_on.Nodup)
    ∧ Dag.Acyclic [⟨0, Dag.TType.sync, []⟩, ⟨1, Dag.TType.sync, [0]⟩]
    ∧ (∀ t ∈ ([⟨0, Dag.TType.sync, []⟩, ⟨1, Dag.TType.sync, [0]⟩] : Dag.DagCfg),
        ∀ b ∈ t.depends_on, b ∈ Dag.ids [⟨0, Dag.TType.sync, []⟩, ⟨1, Dag.TType.sync, [0]⟩])
    ∧ Dag.build_dag [⟨0, Dag.TType.sync, []⟩, ⟨1, Dag.TType.sync, [0]⟩]
        = Except.ok [⟨0, Dag.TType.sync, []⟩, ⟨1, Dag.TType.sync, [0]⟩]
    ∧ (∀ x ∈ (Dag.topological_sort [⟨0, Dag.TType.sync, []⟩, ⟨1, Dag.TType.sync, [0]⟩]).flatten,
        x ∈ Dag.ids [⟨0, Dag.TType.sync, []⟩, ⟨1, Dag.TType.sync, [0]⟩])
    ∧ (∀ t ∈ ([⟨0, Dag.TType.sync, []⟩, ⟨1, Dag.TType.sync, [0]⟩] : Dag.DagCfg),
        (Dag.topological_sort [⟨0, Dag.TType.sync, []⟩, ⟨1, Dag.TType.sync, [0]⟩]).flatten.count
          t.task_id = 1)
    ∧ (∀ t ∈ ([⟨0, Dag.TType.sync, []⟩, ⟨1, Dag.TType.sync, [0]⟩] : Dag.DagCfg),
        ∀ b ∈ t.depends_on, ∀ i j : Nat,
        ((Dag.topological_sort [⟨0, Dag.TType.sync, []⟩, ⟨1, Dag.TType.sync, [0]⟩]).flatten)[i]?
            = some t.task_id →
        ((Dag.topological_sort [⟨0, Dag.TType.sync, []⟩, ⟨1, Dag.TType.sync, [0]⟩]).flatten)[j]?
            = some b → j < i) := by
  have hacy : Dag.Acyclic [⟨0, Dag.TType.sync, []⟩, ⟨1, Dag.TType.sync, [0]⟩] := by
    show WellFounded (fun b a =>
      Dag.DepRel [⟨0, Dag.TType.sync, []⟩, ⟨1, Dag.TType.sync, [0]⟩] a b)
    have acc0 : Acc (fun b a =>
        Dag.DepRel [⟨0, Dag.TType.sync, []⟩, ⟨1, Dag.TType.sync, [0]⟩] a b) 0 := by
      constructor
      intro y hy
      obtain ⟨t, ht, htid, hyb, _⟩ := hy
      rcases List.mem_cons.mp ht with rfl | ht2
      · simp at hyb
      · rcases List.mem_cons.mp ht2 with rfl | ht3
        · exact absurd htid (by decide)
        · cases ht3
    constructor
    intro x
    constructor
    intro y hy
    obtain ⟨t, ht, htid, hyb, _⟩ := hy
    rcases List.mem_cons.mp ht with rfl | ht2
    · simp at hyb
    · rcases List.mem_cons.mp ht2 with rfl | ht3
      · have hy0 : y = 0 := by simpa using hyb
        subst hy0
        exact acc0
      · cases ht3
  have h := c4_build_and_topo [⟨0, Dag.TType.sync, []⟩, ⟨1, Dag.TType.sync, [0]⟩]
    (by decide) (by decide) hacy (by decide)
  exact ⟨by decide, by decide, hacy, by decide, h.1, h.2.1, h.2.2.1, h.2.2.2⟩

/-! ## Theorems: claim C6 -/

/-- C6: in every completed DAG run over an acyclic task set with unique
ids, if a task A ends failed then every transitive dependent of A ends
skipped with error message "Dependency failed" and never success; in
particular, in the two-task DAG with a sync task 0 and a production
task 1 depending on it, an executor returning false leaves task 0
failed, task 1 skipped with that message, and the final run status
failed. -/
theorem c6_failure_cascade (d : Dag.DagCfg) (exec : Nat → Bool)
    (hN : (Dag.ids d).Nodup) (hacy : Dag.Acyclic d)
    {o : Dag.DagOutcome} (hrun : Dag.execute_dag d exec = Except.ok o)
    (A : Nat) (hA : o.state.status A = Dag.TStatus.failed) :
    (∀ B, Relation.TransGen (Dag.DepRel d) B A →
      o.state.status B = Dag.TStatus.skipped
      ∧ o.state.msg B = some "Dependency failed"
      ∧ o.state.status B ≠ Dag.TStatus.success)
    ∧ (match Dag.execute_dag [⟨0, Dag.TType.sync, []⟩, ⟨1, Dag.TType.production, [0]⟩] (fun _ => false) with
       | Except.ok o2 =>
           o2.state.status 0 = Dag.TStatus.failed
           ∧ o2.state.status 1 = Dag.TStatus.skipped
           ∧ o2.state.msg 1 = some "Dependency failed"
           ∧ o2.final = Dag.TStatus.failed
       | Except.error _ => False) := by
  cases hb : Dag.build_dag d with
  | error e =>
    exfalso
    unfold Dag.execute_dag at hrun
    rw [hb] at hrun
    exact Except.noConfusion hrun
  | ok dd =>
    have hrun2 : (Except.ok (⟨(Dag.runLayers d exec Dag.initState (Dag.topological_sort d)).1,
        Dag.aggregate d (Dag.runLayers d exec Dag.initState (Dag.topological_sort d)).1,
        (Dag.runLayers d exec Dag.initState (Dag.topological_sort d)).2⟩ : Dag.DagOutcome)
        : Except String Dag.DagOutcome)
        = Except.ok o := by
      rw [← hrun]
      unfold Dag.execute_dag
      rw [hb]
    have ho := Except.ok.inj hrun2
    have hstate : o.state = (Dag.runLayers d exec Dag.initState (Dag.topological_sort d)).1 := by
      rw [← ho]
    rw [hstate] at hA
    obtain ⟨hcomp, hnd, hgood, hsub⟩ := Dag.topological_sort_spec hN hacy
    have hinv0 : Dag.SInv d [] Dag.initState :=
      ⟨fun x hx => absurd hx (List.not_mem_nil x),
       fun x hx => absurd hx (List.not_mem_nil x)⟩
    have hfin := Dag.runLayers_inv exec (Dag.topological_sort d) []
      Dag.initState hinv0 hgood (by simpa using hnd)
    simp only [List.nil_append] at hfin
    have step : ∀ x y, Dag.DepRel d x y →
        ((Dag.runLayers d exec Dag.initState (Dag.topological_sort d)).1.status y = Dag.TStatus.failed
          ∨ (Dag.runLayers d exec Dag.initState (Dag.topological_sort d)).1.status y = Dag.TStatus.skipped) →
        (Dag.runLayers d exec Dag.initState (Dag.topological_sort d)).1.status x = Dag.TStatus.skipped
        ∧ (Dag.runLayers d exec Dag.initState (Dag.topological_sort d)).1.msg x = some "Dependency failed" := by
      intro x y hdep hy
      have hxid : x ∈ Dag.ids d := Dag.DepRel.mem_ids_left hdep
      obtain ⟨t, ht, rfl⟩ := List.mem_map.mp hxid
      have hxF : t.task_id ∈ (Dag.topological_sort d).flatten := hcomp t ht
      have hyd : y ∈ Dag.depsOfId d t.task_id := Dag.DepRel.mem_depsOfId hN hdep
      exact hfin.casc t.task_id hxF y hyd hy
    have main : ∀ B C, Relation.TransGen (Dag.DepRel d) B C →
        ((Dag.runLayers d exec Dag.initState (Dag.topological_sort d)).1.status C = Dag.TStatus.failed
          ∨ (Dag.runLayers d exec Dag.initState (Dag.topological_sort d)).1.status C = Dag.TStatus.skipped) →
        (Dag.runLayers d exec Dag.initState (Dag.topological_sort d)).1.status B = Dag.TStatus.skipped
        ∧ (Dag.runLayers d exec Dag.initState (Dag.topological_sort d)).1.msg B = some "Dependency failed" := by
      intro B C h
      induction h with
      | single hbc =>
        intro hC
        exact step _ _ hbc hC
      | tail hBb hbc ihh =>
        intro hC
        have hb2 := step _ _ hbc hC
        exact ihh (Or.inr hb2.1)
    refine ⟨?_, ?_⟩
    · intro B hBA
      rw [hstate]
      have h2 := main B A hBA (Or.inl hA)
      refine ⟨h2.1, h2.2, ?_⟩
      intro hc
      exact absurd (h2.1.symm.trans hc) (by decide)
    · exact ⟨rfl, rfl, rfl, rfl⟩

/-- C6 witness: the concrete two-task scenario applied through the
cascade theorem. -/
theorem c6_witness :
    (Dag.ids [⟨0, Dag.TType.sync, []⟩, ⟨1, Dag.TType.production, [0]⟩]).Nodup
    ∧ ∃ o, Dag.execute_dag [⟨0, Dag.TType.sync, []⟩, ⟨1, Dag.TType.production, [0]⟩] (fun _ => false) = Except.ok o
      ∧ o.state.status 0 = Dag.TStatus.failed
      ∧ Relation.TransGen (Dag.DepRel [⟨0, Dag.TType.sync, []⟩, ⟨1, Dag.TType.production, [0]⟩]) 1 0
      ∧ o.state.status 1 = Dag.TStatus.skipped
      ∧ o.state.msg 1 = some "Dependency failed"
      ∧ o.state.status 1 ≠ Dag.TStatus.success
      ∧ o.final = Dag.TStatus.failed := by
  have hacy : Dag.Acyclic [⟨0, Dag.TType.sync, []⟩, ⟨1, Dag.TType.production, [0]⟩] := by
    show WellFounded (fun b a => Dag.DepRel [⟨0, Dag.TType.sync, []⟩, ⟨1, Dag.TType.production, [0]⟩] a b)
    have acc0 : Acc (fun b a => Dag.DepRel [⟨0, Dag.TType.sync, []⟩, ⟨1, Dag.TType.production, [0]⟩] a b) 0 := by
      constructor
      intro y hy
      obtain ⟨t, ht, htid, hyb, _⟩ := hy
      rcases List.mem_cons.mp ht with rfl | ht2
      · simp at hyb
      · rcases List.mem_cons.mp ht2 with rfl | ht3
        · exact absurd htid (by decide)
        · cases ht3
    constructor
    intro x
    constructor
    intro y hy
    obtain ⟨t, ht, htid, hyb, _⟩ := hy
    rcases List.mem_cons.mp ht with rfl | ht2
    · simp at hyb
    · rcases List.mem_cons.mp ht2 with rfl | ht3
      · have hy0 : y = 0 := by simpa using hyb
        subst hy0
        exact acc0
      · cases ht3
  have hdep : Relation.TransGen (Dag.DepRel [⟨0, Dag.TType.sync, []⟩, ⟨1, Dag.TType.production, [0]⟩]) 1 0 :=
    Relation.TransGen.single
      ⟨⟨1, Dag.TType.production, [0]⟩, by simp, rfl, by simp, by simp [Dag.ids]⟩
  refine ⟨by decide, ?_⟩
  cases hE : Dag.execute_dag [⟨0, Dag.TType.sync, []⟩, ⟨1, Dag.TType.production, [0]⟩] (fun _ => false) with
  | error e =>
    exfalso
    have h1 : (match Dag.execute_dag [⟨0, Dag.TType.sync, []⟩, ⟨1, Dag.TType.production, [0]⟩] (fun _ => false) with
        | Except.ok _ => true
        | Except.error _ => false) = true := by decide
    rw [hE] at h1
    cases h1
  | ok o =>
    have h0 : o.state.status 0 = Dag.TStatus.failed := by
      have h1 : (match Dag.execute_dag [⟨0, Dag.TType.sync, []⟩, ⟨1, Dag.TType.production, [0]⟩] (fun _ => false) with
          | Except.ok o2 => o2.state.status 0
          | Except.error _ => Dag.TStatus.pending) = Dag.TStatus.failed := by decide
      rw [hE] at h1
      exact h1
    have hfinal : o.final = Dag.TStatus.failed := by
      have h1 : (match Dag.execute_dag [⟨0, Dag.TType.sync, []⟩, ⟨1, Dag.TType.production, [0]⟩] (fun _ => false) with
          | Except.ok o2 => o2.final
          | Except.error _ => Dag.TStatus.pending) = Dag.TStatus.failed := by decide
      rw [hE] at h1
      exact h1
    have hc := c6_failure_cascade [⟨0, Dag.TType.sync, []⟩, ⟨1, Dag.TType.production, [0]⟩] (fun _ => false) (by decide) hacy hE 0 h0
    have h1 := hc.1 1 hdep
    exact ⟨o, rfl, h0, hdep, h1.1, h1.2.1, h1.2.2, hfinal⟩

end QRS
